import Mathlib

/-!
# Weisfeiler-Lehman refinement engine: a shallow embedding

This file embeds the WL color-refinement engine of
`src/services/wlAlgorithm.ts` (the only algorithmic component of the
repository) and proves the specification's claims about it.

Modelling conventions:

* `LabelId`s are decimal strings minted as `globalLabelCounter.toString()`
  from a `Nat` counter; every consumer either parses them back with
  `parseInt` (numeric sorts) or treats them as opaque map/record keys.
  Since `Nat.repr` is injective and `parseInt ∘ toString = id`, we carry
  the underlying `Nat` and render it with `Nat.repr` exactly where the
  code manufactures a string that is itself compared as a string
  (signatures).  Signatures stay genuine `String`s, and the pooled
  signature sort is a genuine lexicographic string sort, so the code's
  distinction between the numeric neighbour sort and the lexicographic
  signature sort is preserved.
* JS `Map`s are embedded as association lists built in insertion order,
  looked up with `List.lookup`; all maps built by the engine have
  pairwise-distinct keys when node ids are distinct, which makes the
  first-match/last-set distinction immaterial (theorems that need it
  carry a `Nodup` hypothesis, matching the data model's "ids unique
  within a graph").
* A JS `Record<string, number>` whose keys are canonical integer strings
  enumerates its keys in ascending integer order (array-index key
  semantics); the histograms, whose keys are exactly the minted decimal
  LabelIds, are therefore embedded as key-sorted association lists.
* `Array.prototype.sort` returns a sorted permutation; at every sort
  site of this file elements with equal sort keys are identical values,
  so the sorted output is unique and `List.insertionSort` computes it.
* Display-only data (colors, the `expanded` rendering of signatures,
  unused fields) is dropped: the spec classes it as presentation logic
  that must not influence the engine.
-/

/-- Lexicographic (code-unit) order on character lists, the order JS
`Array.prototype.sort()` uses on the ASCII strings compared here. -/
def charListLe : List Char → List Char → Bool
  | [], _ => true
  | _ :: _, [] => false
  | a :: as, b :: bs =>
    if a < b then true
    else if b < a then false
    else charListLe as bs

/-- Lexicographic order on strings (JS default string comparison). -/
def strLe (s t : String) : Prop := charListLe s.data t.data = true

instance : DecidableRel strLe := fun s t =>
  inferInstanceAs (Decidable (charListLe s.data t.data = true))

/-- `Node` of `src/types.ts` (the display coordinates `x`,`y` are
presentation data and omitted). -/
structure Node where
  id : String
  originalLabel : Nat
deriving DecidableEq, Repr

/-- `Link` of `src/types.ts`. -/
structure Link where
  source : String
  target : String
deriving DecidableEq, Repr

/-- `GraphData` of `src/types.ts`. -/
structure GraphData where
  nodes : List Node
  links : List Link
deriving DecidableEq, Repr

/-- `HashMapping` of `src/types.ts` (the cosmetic `color` field, a pure
function of `label`, is omitted).  `label` carries the numeric value of
the minted decimal LabelId string. -/
structure HashMapping where
  signature : String
  label : Nat
deriving DecidableEq, Repr

/-- `WLStep` of `src/types.ts`.  `labelsA`/`labelsB` are the
`nodeDataA`/`nodeDataB` maps projected to their `label` field (the other
`WLStepNodeData` fields are display-only); histograms are embedded as
key-sorted association lists (JS integer-key record semantics). -/
structure WLStep where
  k : Nat
  labelsA : List (String × Nat)
  labelsB : List (String × Nat)
  labelCountsA : List (Nat × Nat)
  labelCountsB : List (Nat × Nat)
  uniqueLabels : List Nat
  mappings : List HashMapping
  isIsomorphicCandidate : Bool
deriving DecidableEq, Repr

/-- `SimulationResult` of `src/types.ts`. -/
structure SimulationResult where
  steps : List WLStep
  maxK : Int
deriving DecidableEq, Repr

/-- `adj.has(i)` of the adjacency `Map`: membership of `i` among the node
ids (the `Map` is seeded with exactly the node ids, and pushes never add
keys). -/
def hasNodeId (nodes : List Node) (i : String) : Bool :=
  nodes.any (fun n => n.id == i)

/-- One iteration of the `links.forEach` loop of `getAdjacencyList`
(`wlAlgorithm.ts` lines 8-13): when both endpoints are known node ids,
push the target onto the source's list and then the source onto the
target's list (a self-loop pushes onto the same list twice). -/
def addLink (hasId : String → Bool) (adj : String → List String) (l : Link) :
    String → List String :=
  if hasId l.source && hasId l.target then
    fun i =>
      let afterSrc := if i == l.source then adj i ++ [l.target] else adj i
      if i == l.target then afterSrc ++ [l.source] else afterSrc
  else adj

/-- `getAdjacencyList` (`wlAlgorithm.ts` lines 4-15) as the function
`node id ↦ neighbour list`; ids absent from the `Map` read as `[]`,
matching the `adj.get(node.id) || []` consumer on line 91. -/
def getAdjacencyList (nodes : List Node) (links : List Link) :
    String → List String :=
  links.foldl (addLink (hasNodeId nodes)) (fun _ => [])

/-- `areCountsEqual` (`wlAlgorithm.ts` lines 17-26): same number of keys,
and every key of `c1` maps in `c2` to the same value (`c2[k]` being
`undefined`, i.e. `none`, when `k` is not a key of `c2`). -/
def areCountsEqual (c1 c2 : List (Nat × Nat)) : Bool :=
  c1.length == c2.length && c1.all (fun kv => c2.lookup kv.1 == some kv.2)

/-- The histogram record built by `countsA[newLabel] = (countsA[newLabel]
|| 0) + 1`: its key set is the set of labels occurring in `lbls`, each
mapped to its multiplicity; keys enumerate in ascending numeric order
(JS integer-key record semantics). -/
def countsOf (lbls : List Nat) : List (Nat × Nat) :=
  (List.insertionSort (· ≤ ·) lbls.dedup).map (fun l => (l, lbls.count l))

/-- The `k = 0` signature string `` `[${node.originalLabel}]` ``
(`wlAlgorithm.ts` line 86). -/
def sig0 (v : Nat) : String := "[" ++ Nat.repr v ++ "]"

/-- The `k ≥ 1` signature string
`` `(${myPrevLabel},[${neighborLabels.join(',')}])` ``
(`wlAlgorithm.ts` line 96), taking the already-sorted neighbour labels. -/
def sigK (prevLab : Nat) (sortedNeighbors : List Nat) : String :=
  "(" ++ Nat.repr prevLab ++ ",[" ++
    String.intercalate "," (sortedNeighbors.map Nat.repr) ++ "])"

/-- Tag distinguishing the two graphs in the pooled signature list. -/
inductive GraphTag where
  | A : GraphTag
  | B : GraphTag
deriving DecidableEq, Repr

/-- The `NodeSig` record of `processStep` (`wlAlgorithm.ts` lines 68-73);
`selfLab`/`neighbors` are the `expanded` payload. -/
structure NodeSig where
  graph : GraphTag
  id : String
  signature : String
  selfLab : Nat
  neighbors : List Nat
deriving DecidableEq, Repr

/-- The body of `generateSig` for one node (`wlAlgorithm.ts` lines
78-104): at `k = 0` the signature is the raw initial label in brackets;
at `k ≥ 1` it is the node's previous label together with its neighbours'
previous labels sorted by `(a, b) => parseInt(a) - parseInt(b)`, i.e. by
numeric value.  The `getD 0` defaults are never reached on ids of the
graph, whose previous-label map always covers every node id. -/
def mkNodeSig (k : Nat) (g : GraphTag) (adj : String → List String)
    (prevLabs : List (String × Nat)) (node : Node) : NodeSig :=
  if k == 0 then
    { graph := g, id := node.id, signature := sig0 node.originalLabel,
      selfLab := node.originalLabel, neighbors := [] }
  else
    let myPrev := (prevLabs.lookup node.id).getD 0
    let neighborLabels :=
      (adj node.id).map (fun nid => (prevLabs.lookup nid).getD 0)
    let sortedN := List.insertionSort (· ≤ ·) neighborLabels
    { graph := g, id := node.id, signature := sigK myPrev sortedN,
      selfLab := myPrev, neighbors := sortedN }

/-- The distinct `initialLabel` values of both graphs, sorted ascending
(`wlAlgorithm.ts` lines 45-49). -/
def initValues (graphA graphB : GraphData) : List Nat :=
  List.insertionSort (· ≤ ·)
    ((graphA.nodes.map (·.originalLabel) ++
      graphB.nodes.map (·.originalLabel)).dedup)

/-- `initLabelMap` (`wlAlgorithm.ts` lines 50-55): the i-th sorted
initial value receives LabelId `i + 1` from the global counter. -/
def initLabelMapOf (sortedInit : List Nat) : List (Nat × Nat) :=
  sortedInit.enum.map (fun p => (p.2, p.1 + 1))

/-- The initial label map of one node list (`wlAlgorithm.ts` lines
57-59). -/
def initLabels (graphA graphB : GraphData) (nodes : List Node) :
    List (String × Nat) :=
  nodes.map (fun n =>
    (n.id, ((initLabelMapOf (initValues graphA graphB)).lookup
      n.originalLabel).getD 0))

/-- Result of one `processStep` call: the step record, the two
next-label maps, and the advanced global counter (the TS closure mutates
`globalLabelCounter`; we thread it explicitly). -/
structure StepResult where
  step : WLStep
  nextLabelsA : List (String × Nat)
  nextLabelsB : List (String × Nat)
  counter : Nat
deriving DecidableEq, Repr

/-- The `allSigs` pool (`wlAlgorithm.ts` lines 75, 107-108): signatures
of all nodes of graph A followed by all nodes of graph B. -/
def poolSigs (graphA graphB : GraphData) (k : Nat)
    (prevA prevB : List (String × Nat)) : List NodeSig :=
  graphA.nodes.map
    (mkNodeSig k GraphTag.A (getAdjacencyList graphA.nodes graphA.links)
      prevA) ++
  graphB.nodes.map
    (mkNodeSig k GraphTag.B (getAdjacencyList graphB.nodes graphB.links)
      prevB)

/-- `uniqueSignatures` (`wlAlgorithm.ts` line 111): the distinct
signature strings of the pool, sorted lexicographically by the default
string sort. -/
def uniqueSigs (sigs : List NodeSig) : List String :=
  List.insertionSort strLe ((sigs.map (·.signature)).dedup)

/-- `stepMapping` (`wlAlgorithm.ts` lines 114, 117-151): at `k = 0` the
bracketed initial values looked up in `initLabelMap`; at `k ≥ 1` the
i-th sorted unique signature receives the fresh LabelId
`counter + 1 + i` from the still-running global counter. -/
def stepMappingOf (graphA graphB : GraphData) (k : Nat)
    (usigs : List String) (counter : Nat) : List (String × Nat) :=
  if k == 0 then
    (initValues graphA graphB).map (fun v =>
      (sig0 v,
        ((initLabelMapOf (initValues graphA graphB)).lookup v).getD 0))
  else
    usigs.enum.map (fun p => (p.2, counter + 1 + p.1))

/-- `mappingList` (`wlAlgorithm.ts` lines 115, 132-150): the mapping
rows displayed for the step, in the same order as `stepMappingOf`. -/
def mappingListOf (graphA graphB : GraphData) (k : Nat)
    (usigs : List String) (counter : Nat) : List HashMapping :=
  if k == 0 then
    (initValues graphA graphB).map (fun v =>
      { signature := "Initial: " ++ Nat.repr v,
        label :=
          ((initLabelMapOf (initValues graphA graphB)).lookup v).getD 0 })
  else
    usigs.enum.map (fun p => { signature := p.2, label := counter + 1 + p.1 })

/-- `processStep` (`wlAlgorithm.ts` lines 62-204).  The unused
`labelsA`/`labelsB` parameters of the TS function are dropped; the
adjacency lists and the initial-canonicalization data, computed once
outside the closure in TS, are recomputed per call (they are pure
functions of the graphs). -/
def processStep (graphA graphB : GraphData) (k : Nat)
    (prevA prevB : List (String × Nat)) (counter : Nat) : StepResult :=
  let allSigs := poolSigs graphA graphB k prevA prevB
  let usigs := uniqueSigs allSigs
  let stepMapping := stepMappingOf graphA graphB k usigs counter
  let counter' := if k == 0 then counter else counter + usigs.length
  let labelOf : NodeSig → Nat := fun s =>
    (stepMapping.lookup s.signature).getD 0
  let sigsA := allSigs.filter (fun s => s.graph == GraphTag.A)
  let sigsB := allSigs.filter (fun s => s.graph == GraphTag.B)
  let countsA := countsOf (sigsA.map labelOf)
  let countsB := countsOf (sigsB.map labelOf)
  { step :=
      { k := k
        labelsA := sigsA.map (fun s => (s.id, labelOf s))
        labelsB := sigsB.map (fun s => (s.id, labelOf s))
        labelCountsA := countsA
        labelCountsB := countsB
        uniqueLabels :=
          List.insertionSort (· ≤ ·)
            ((countsA.map (·.1) ++ countsB.map (·.1)).dedup)
        mappings := mappingListOf graphA graphB k usigs counter
        isIsomorphicCandidate := areCountsEqual countsA countsB }
    nextLabelsA := sigsA.map (fun s => (s.id, labelOf s))
    nextLabelsB := sigsB.map (fun s => (s.id, labelOf s))
    counter := counter' }

/-- The `for (let k = 1; k <= maxK; k++)` loop (`wlAlgorithm.ts` lines
211-221), producing the step records of `rounds` further refinement
rounds starting at step index `k`. -/
def runSteps (graphA graphB : GraphData) :
    Nat → Nat → List (String × Nat) → List (String × Nat) → Nat →
    List WLStep
  | 0, _, _, _, _ => []
  | rounds + 1, k, labsA, labsB, counter =>
    let r := processStep graphA graphB k labsA labsB counter
    r.step ::
      runSteps graphA graphB rounds (k + 1) r.nextLabelsA r.nextLabelsB
        r.counter

/-- `runWLAlgorithm` (`wlAlgorithm.ts` lines 28-224).  `maxK` is an
`Int` since the TS `number` parameter may be negative; the loop body
runs `max maxK 0 = maxK.toNat` times.  As in the TS code, the label maps
fed to the `k = 1` round are the initialization-phase maps
(`result0.nextLabels*` is discarded), and the counter is unchanged by
the `k = 0` round. -/
def runWLAlgorithm (graphA graphB : GraphData) (maxK : Int) :
    SimulationResult :=
  let labsA0 := initLabels graphA graphB graphA.nodes
  let labsB0 := initLabels graphA graphB graphB.nodes
  let counter0 := (initValues graphA graphB).length
  let r0 := processStep graphA graphB 0 labsA0 labsB0 counter0
  { steps :=
      r0.step ::
        runSteps graphA graphB maxK.toNat 1 labsA0 labsB0 r0.counter
    maxK := maxK }

/-! ## Concrete inputs

The `CYCLES` scenario of the repository's scenario generator
(`createCycle` with prefixes `A_C6_`, `B_C3a_`, `B_C3b_`), and small
fixtures used as witnesses. -/

/-- `createCycle(n, prefix)` of the scenario generator: nodes
`prefix0 .. prefix(n-1)` with `originalLabel = 1`, links
`prefixi — prefix((i+1) % n)`. -/
def createCycle (n : Nat) (pre : String) : GraphData :=
  { nodes := (List.range n).map (fun i =>
      { id := pre ++ Nat.repr i, originalLabel := 1 })
    links := (List.range n).map (fun i =>
      { source := pre ++ Nat.repr i, target := pre ++ Nat.repr ((i + 1) % n) }) }

/-- Graph A of the known-incompleteness scenario: a single 6-cycle. -/
def cycleC6 : GraphData := createCycle 6 "A_C6_"

/-- Graph B of the known-incompleteness scenario: two disjoint
3-cycles. -/
def twoC3 : GraphData :=
  { nodes := (createCycle 3 "B_C3a_").nodes ++ (createCycle 3 "B_C3b_").nodes
    links := (createCycle 3 "B_C3a_").links ++ (createCycle 3 "B_C3b_").links }

/-- The path graph labeled `[2,1,1,1,2]` of the spec's immediate
rejection scenario; used as a small generic fixture. -/
def pathG : GraphData :=
  { nodes := [⟨"P0", 2⟩, ⟨"P1", 1⟩, ⟨"P2", 1⟩, ⟨"P3", 1⟩, ⟨"P4", 2⟩]
    links := [⟨"P0", "P1"⟩, ⟨"P1", "P2"⟩, ⟨"P2", "P3"⟩, ⟨"P3", "P4"⟩] }

/-- The star graph (center label 3, four leaves label 2) of the spec's
immediate rejection scenario. -/
def starG : GraphData :=
  { nodes := [⟨"S0", 3⟩, ⟨"S1", 2⟩, ⟨"S2", 2⟩, ⟨"S3", 2⟩, ⟨"S4", 2⟩]
    links := [⟨"S0", "S1"⟩, ⟨"S0", "S2"⟩, ⟨"S0", "S3"⟩, ⟨"S0", "S4"⟩] }

/-- A one-node graph with a dangling link: the link's target `zz` is not
a node id of the graph. -/
def danglingG : GraphData := { nodes := [⟨"a", 1⟩], links := [⟨"a", "zz"⟩] }

/-- A one-node graph with no links. -/
def singleB : GraphData := { nodes := [⟨"b", 1⟩], links := [] }

/-! ## Graph isomorphism (for the known-incompleteness scenario)

A mathematical definition of isomorphism of the `GraphData` inputs,
independent of the engine: a positional matching of the two node lists
that preserves initial labels and adjacency multiplicity. -/

/-- Adjacency multiplicity of `y` in the neighbour list of `x`. -/
def adjCount (g : GraphData) (x y : String) : Nat :=
  (getAdjacencyList g.nodes g.links x).count y

/-- Whether matching `gA.nodes` positionally with the reordering `perm`
of `gB.nodes` preserves initial labels and adjacency multiplicity. -/
def isIsoBy (gA gB : GraphData) (perm : List Node) : Bool :=
  gA.nodes.length == perm.length &&
  (gA.nodes.zip perm).all (fun p => p.1.originalLabel == p.2.originalLabel) &&
  ((gA.nodes.zip perm).all (fun p =>
    (gA.nodes.zip perm).all (fun q =>
      adjCount gA p.1.id q.1.id == adjCount gB p.2.id q.2.id)))

/-- All ways of inserting `a` into a list (structural helper for the
permutation enumeration). -/
def insertsOf {α : Type} (a : α) : List α → List (List α)
  | [] => [[a]]
  | b :: l => (a :: b :: l) :: (insertsOf a l).map (b :: ·)

/-- All permutations of a list, enumerated structurally. -/
def permsOf {α : Type} : List α → List (List α)
  | [] => [[]]
  | a :: l => (permsOf l).flatMap (insertsOf a)

/-- The two graphs are isomorphic: some reordering of `gB`'s node list
matches `gA`'s node list preserving labels and adjacency. -/
def graphIso (gA gB : GraphData) : Prop :=
  ∃ perm ∈ permsOf gB.nodes, isIsoBy gA gB perm = true

instance (gA gB : GraphData) : Decidable (graphIso gA gB) := by
  unfold graphIso
  exact List.decidableBEx _ _

/-! ## Derived definitions used by the statements -/

/-- The neighbour-list contribution of a single link to the adjacency
list of `i` (used to give `getAdjacencyList` a closed form). -/
def linkContrib (hasId : String → Bool) (i : String) (l : Link) :
    List String :=
  if hasId l.source && hasId l.target then
    (if i == l.source then [l.target] else []) ++
    (if i == l.target then [l.source] else [])
  else []

/-- The links of `g` whose two endpoints are both known node ids of `g`
(the ones `getAdjacencyList`'s guard keeps). -/
def validLinks (g : GraphData) : List Link :=
  g.links.filter (fun l =>
    hasNodeId g.nodes l.source && hasNodeId g.nodes l.target)

/-- The per-graph label map of a step record for a given graph tag. -/
def stepLabels (st : WLStep) : GraphTag → List (String × Nat)
  | GraphTag.A => st.labelsA
  | GraphTag.B => st.labelsB

/-- The node list selected by a graph tag. -/
def taggedNodes (graphA graphB : GraphData) : GraphTag → List Node
  | GraphTag.A => graphA.nodes
  | GraphTag.B => graphB.nodes

/-- Equivalence of step records up to iteration order of the per-node
label `Map`s: every non-`Map` field is equal on the nose, and the two
per-graph label maps agree as maps (same lookup at every node id).  This
is the sense in which the step sequence is independent of the iteration
order of the input arrays: the assignment `node ↦ LabelId`, the
histograms, the mapping rows and the verdicts all coincide. -/
def StepEquiv (s s' : WLStep) : Prop :=
  s.k = s'.k ∧
  (∀ i : String, s.labelsA.lookup i = s'.labelsA.lookup i) ∧
  (∀ i : String, s.labelsB.lookup i = s'.labelsB.lookup i) ∧
  s.labelCountsA = s'.labelCountsA ∧
  s.labelCountsB = s'.labelCountsB ∧
  s.uniqueLabels = s'.uniqueLabels ∧
  s.mappings = s'.mappings ∧
  s.isIsomorphicCandidate = s'.isIsomorphicCandidate

/-- A default step record (used to select a concrete list element in
closed statements). -/
def emptyStep : WLStep :=
  { k := 0, labelsA := [], labelsB := [], labelCountsA := [],
    labelCountsB := [], uniqueLabels := [], mappings := [],
    isIsomorphicCandidate := false }

/-- A one-node graph with a self-loop link. -/
def loopG : GraphData := { nodes := [⟨"a", 1⟩], links := [⟨"a", "a"⟩] }

/-- The previous-label map selected by a graph tag. -/
def taggedPrev (pA pB : List (String × Nat)) : GraphTag → List (String × Nat)
  | GraphTag.A => pA
  | GraphTag.B => pB

/-- The adjacency function selected by a graph tag. -/
def taggedAdj (gA gB : GraphData) : GraphTag → String → List String
  | GraphTag.A => getAdjacencyList gA.nodes gA.links
  | GraphTag.B => getAdjacencyList gB.nodes gB.links

/-- The labels of step `t` refine the label maps `(laA, laB)`: whenever
two nodes (of either graph) carry equal labels in `t`, they carried
equal labels in `(laA, laB)`. -/
def RefinesMaps (gA gB : GraphData) (laA laB : List (String × Nat))
    (t : WLStep) : Prop :=
  ∀ (t1 t2 : GraphTag) (n1 n2 : Node),
    n1 ∈ taggedNodes gA gB t1 → n2 ∈ taggedNodes gA gB t2 →
    (stepLabels t t1).lookup n1.id = (stepLabels t t2).lookup n2.id →
    (taggedPrev laA laB t1).lookup n1.id =
      (taggedPrev laA laB t2).lookup n2.id

/-- Step `t`'s labels refine step `s`'s labels. -/
def StepRefines (gA gB : GraphData) (s t : WLStep) : Prop :=
  RefinesMaps gA gB s.labelsA s.labelsB t

/-! ## Order lemmas for the two sort orders -/

theorem string_eq_of_data {s t : String} (h : s.data = t.data) : s = t := by
  cases s
  cases t
  exact congrArg String.mk h

theorem charListLe_cons_iff {a b : Char} {as bs : List Char} :
    charListLe (a :: as) (b :: bs) = true ↔
      a < b ∨ (a = b ∧ charListLe as bs = true) := by
  simp only [charListLe]
  split_ifs with h1 h2
  · simp [h1]
  · constructor
    · intro h
      simp at h
    · rintro (h | ⟨h, -⟩)
      · exact absurd h h1
      · exact absurd h2 (h ▸ lt_irrefl a)
  · have hab : a = b := le_antisymm (not_lt.mp h2) (not_lt.mp h1)
    simp [hab]

theorem charListLe_total : ∀ l m : List Char,
    charListLe l m = true ∨ charListLe m l = true
  | [], _ => Or.inl rfl
  | _ :: _, [] => Or.inr rfl
  | a :: as, b :: bs => by
    rcases lt_trichotomy a b with h | h | h
    · exact Or.inl (charListLe_cons_iff.mpr (Or.inl h))
    · rcases charListLe_total as bs with ih | ih
      · exact Or.inl (charListLe_cons_iff.mpr (Or.inr ⟨h, ih⟩))
      · exact Or.inr (charListLe_cons_iff.mpr (Or.inr ⟨h.symm, ih⟩))
    · exact Or.inr (charListLe_cons_iff.mpr (Or.inl h))

theorem charListLe_trans : ∀ {l m n : List Char},
    charListLe l m = true → charListLe m n = true → charListLe l n = true
  | [], _, _, _, _ => rfl
  | _ :: _, [], _, h, _ => by simp [charListLe] at h
  | _ :: _, _ :: _, [], _, h => by simp [charListLe] at h
  | a :: as, b :: bs, c :: cs, h1, h2 => by
    rcases charListLe_cons_iff.mp h1 with hab | ⟨hab, h1'⟩ <;>
      rcases charListLe_cons_iff.mp h2 with hbc | ⟨hbc, h2'⟩
    · exact charListLe_cons_iff.mpr (Or.inl (hab.trans hbc))
    · exact charListLe_cons_iff.mpr (Or.inl (hbc ▸ hab))
    · exact charListLe_cons_iff.mpr (Or.inl (hab ▸ hbc))
    · exact charListLe_cons_iff.mpr
        (Or.inr ⟨hab.trans hbc, charListLe_trans h1' h2'⟩)

theorem charListLe_antisymm : ∀ {l m : List Char},
    charListLe l m = true → charListLe m l = true → l = m
  | [], [], _, _ => rfl
  | [], _ :: _, _, h => by simp [charListLe] at h
  | _ :: _, [], h, _ => by simp [charListLe] at h
  | a :: as, b :: bs, h1, h2 => by
    rcases charListLe_cons_iff.mp h1 with hab | ⟨hab, h1'⟩ <;>
      rcases charListLe_cons_iff.mp h2 with hba | ⟨hba, h2'⟩
    · exact absurd hba (lt_asymm hab)
    · exact absurd hab (hba ▸ lt_irrefl a)
    · exact absurd hba (hab ▸ lt_irrefl a)
    · rw [hab, charListLe_antisymm h1' h2']

instance : IsTotal String strLe :=
  ⟨fun s t => charListLe_total s.data t.data⟩

instance : IsTrans String strLe :=
  ⟨fun _ _ _ h1 h2 => charListLe_trans h1 h2⟩

instance : IsAntisymm String strLe :=
  ⟨fun _ _ h1 h2 => string_eq_of_data (charListLe_antisymm h1 h2)⟩

/-- Two permuted lists have the same sorted arrangement, for any total,
transitive, antisymmetric order. -/
theorem insertionSort_eq_of_perm {α : Type} (r : α → α → Prop)
    [DecidableRel r] [IsTotal α r] [IsTrans α r] [IsAntisymm α r]
    {l l' : List α} (h : l.Perm l') :
    List.insertionSort r l = List.insertionSort r l' :=
  List.eq_of_perm_of_sorted
    (((List.perm_insertionSort r l).trans h).trans
      (List.perm_insertionSort r l').symm)
    (List.sorted_insertionSort r l) (List.sorted_insertionSort r l')

/-! ## Association list lookups -/

theorem lookup_mem {α β : Type} [BEq α] [LawfulBEq α]
    {l : List (α × β)} {k : α} {v : β} (h : l.lookup k = some v) :
    (k, v) ∈ l := by
  induction l with
  | nil => simp [List.lookup] at h
  | cons p l ih =>
    rcases p with ⟨a, b⟩
    by_cases hk : k == a
    · simp only [List.lookup, hk] at h
      obtain rfl : b = v := by simpa using h
      obtain rfl : k = a := eq_of_beq hk
      exact List.mem_cons_self _ _
    · simp only [List.lookup, hk] at h
      exact List.mem_cons_of_mem _ (ih h)

theorem lookup_of_mem_nodup {α β : Type} [BEq α] [LawfulBEq α]
    [DecidableEq α] {l : List (α × β)}
    (hnd : (l.map Prod.fst).Nodup) {k : α} {v : β} (hm : (k, v) ∈ l) :
    l.lookup k = some v := by
  induction l with
  | nil => simp at hm
  | cons p l ih =>
    rcases p with ⟨a, b⟩
    rcases List.mem_cons.mp hm with heq | htail
    · obtain ⟨rfl, rfl⟩ := Prod.mk.injEq a b k v ▸ heq.symm
      simp [List.lookup]
    · have hk : ¬(k == a) = true := by
        intro hbeq
        obtain rfl : k = a := eq_of_beq hbeq
        have : k ∈ l.map Prod.fst :=
          List.mem_map.mpr ⟨(k, v), htail, rfl⟩
        exact (List.nodup_cons.mp hnd).1 this
      simp only [List.lookup, Bool.not_eq_true] at hk ⊢
      rw [hk]
      exact ih (List.nodup_cons.mp hnd).2 htail

theorem lookup_none_iff {α β : Type} [BEq α] [LawfulBEq α]
    {l : List (α × β)} {k : α} :
    l.lookup k = none ↔ k ∉ l.map Prod.fst := by
  induction l with
  | nil => simp [List.lookup]
  | cons p l ih =>
    rcases p with ⟨a, b⟩
    by_cases hk : k == a
    · obtain rfl : k = a := eq_of_beq hk
      simp [List.lookup]
    · have hne : k ≠ a := fun habs => hk (habs ▸ (beq_self_eq_true k))
      simp only [List.lookup, hk, List.map_cons, List.mem_cons]
      rw [ih]
      simp [hne]

theorem lookup_eq_of_perm {α β : Type} [BEq α] [LawfulBEq α]
    [DecidableEq α] {l l' : List (α × β)} (h : l.Perm l')
    (hnd : (l.map Prod.fst).Nodup) (k : α) :
    l.lookup k = l'.lookup k := by
  have hnd' : (l'.map Prod.fst).Nodup := ((h.map Prod.fst).nodup_iff).mp hnd
  cases hv : l.lookup k with
  | some v =>
    exact (lookup_of_mem_nodup hnd' (h.mem_iff.mp (lookup_mem hv))).symm
  | none =>
    have : k ∉ l'.map Prod.fst := by
      intro habs
      exact (lookup_none_iff.mp hv) ((h.map Prod.fst).mem_iff.mpr habs)
    exact (lookup_none_iff.mpr this).symm

/-- Looking up `f a` in an association list keyed by an injective
function of the entries finds the entry of `a`. -/
theorem lookup_map_key_inj {α β : Type} [DecidableEq β]
    {f : α → β} (hf : Function.Injective f) (g : α → Nat) :
    ∀ {l : List α} {a : α}, a ∈ l →
      (l.map (fun v => (f v, g v))).lookup (f a) = some (g a) := by
  intro l
  induction l with
  | nil => intro a ha; simp at ha
  | cons b l ih =>
    intro a ha
    by_cases hab : a = b
    · subst hab
      simp [List.lookup]
    · have : ¬(f a == f b) = true := by
        simp only [beq_iff_eq]
        exact fun habs => hab (hf habs)
      simp only [List.map_cons, List.lookup, this]
      exact ih (List.mem_cons.mp ha |>.resolve_left hab)

/-! ## Adjacency lemmas -/

theorem addLink_apply (hasId : String → Bool) (f : String → List String)
    (l : Link) (i : String) :
    addLink hasId f l i = f i ++ linkContrib hasId i l := by
  unfold addLink linkContrib
  by_cases hv : (hasId l.source && hasId l.target) = true
  · simp only [hv, if_true]
    by_cases hs : (i == l.source) = true <;>
      by_cases ht : (i == l.target) = true <;>
        simp [hs, ht, List.append_assoc]
  · simp [hv]

theorem foldl_addLink (hasId : String → Bool) :
    ∀ (links : List Link) (f : String → List String) (i : String),
      links.foldl (addLink hasId) f i =
        f i ++ (links.map (linkContrib hasId i)).flatten
  | [], _, _ => by simp
  | l :: links, f, i => by
    rw [List.foldl_cons, foldl_addLink hasId links (addLink hasId f l) i]
    rw [addLink_apply]
    simp [List.append_assoc]

/-- Closed form of the adjacency list: the concatenation, in link order,
of each link's contribution to `i`'s neighbour list. -/
theorem getAdjacencyList_eq (nodes : List Node) (links : List Link)
    (i : String) :
    getAdjacencyList nodes links i =
      (links.map (linkContrib (hasNodeId nodes) i)).flatten := by
  rw [getAdjacencyList, foldl_addLink]
  rfl

theorem hasNodeId_perm {nodes nodes' : List Node}
    (h : nodes.Perm nodes') : hasNodeId nodes = hasNodeId nodes' := by
  funext i
  unfold hasNodeId
  rw [Bool.eq_iff_iff, List.any_eq_true, List.any_eq_true]
  constructor
  · rintro ⟨n, hn, hni⟩
    exact ⟨n, h.mem_iff.mp hn, hni⟩
  · rintro ⟨n, hn, hni⟩
    exact ⟨n, h.mem_iff.mpr hn, hni⟩

theorem getAdjacencyList_nodes_perm {nodes nodes' : List Node}
    (h : nodes.Perm nodes') (links : List Link) :
    getAdjacencyList nodes links = getAdjacencyList nodes' links := by
  unfold getAdjacencyList
  rw [hasNodeId_perm h]

theorem getAdjacencyList_links_perm (nodes : List Node)
    {links links' : List Link} (h : links.Perm links') (i : String) :
    (getAdjacencyList nodes links i).Perm (getAdjacencyList nodes links' i) := by
  rw [getAdjacencyList_eq, getAdjacencyList_eq]
  exact (h.map (linkContrib (hasNodeId nodes) i)).flatten

/-- Dropping the links whose endpoints are not both known node ids does
not change the adjacency function: `getAdjacencyList` skips them. -/
theorem getAdjacencyList_validLinks (g : GraphData) :
    getAdjacencyList g.nodes g.links =
      getAdjacencyList g.nodes (validLinks g) := by
  funext i
  rw [getAdjacencyList_eq, getAdjacencyList_eq, validLinks]
  induction g.links with
  | nil => rfl
  | cons l links ih =>
    by_cases hv : (hasNodeId g.nodes l.source && hasNodeId g.nodes l.target) = true
    · simp only [List.map_cons, List.filter_cons, hv, if_true,
        List.flatten_cons, ih]
    · have hc : linkContrib (hasNodeId g.nodes) i l = [] := by
        unfold linkContrib
        simp [hv]
      simp only [List.map_cons, List.filter_cons, hv, hc,
        List.flatten_cons, List.nil_append, ih]
      rfl

/-- Multiplicity of `x` in the neighbour list of `i`: one occurrence per
kept link with source `i` and target `x`, plus one per kept link with
target `i` and source `x` (a self-loop `(i, i)` hence contributes two
occurrences of `i`). -/
theorem count_getAdjacencyList (nodes : List Node) (links : List Link)
    (i x : String) :
    (getAdjacencyList nodes links i).count x =
      links.countP (fun l =>
        hasNodeId nodes l.source && hasNodeId nodes l.target &&
        (i == l.source && l.target == x)) +
      links.countP (fun l =>
        hasNodeId nodes l.source && hasNodeId nodes l.target &&
        (i == l.target && l.source == x)) := by
  rw [getAdjacencyList_eq]
  induction links with
  | nil => rfl
  | cons l links ih =>
    rw [List.map_cons, List.flatten_cons, List.count_append,
      List.countP_cons, List.countP_cons, ih]
    have hcount : (linkContrib (hasNodeId nodes) i l).count x =
        (if (hasNodeId nodes l.source && hasNodeId nodes l.target &&
            (i == l.source && l.target == x)) = true then 1 else 0) +
        (if (hasNodeId nodes l.source && hasNodeId nodes l.target &&
            (i == l.target && l.source == x)) = true then 1 else 0) := by
      unfold linkContrib
      by_cases hv : (hasNodeId nodes l.source && hasNodeId nodes l.target) = true
      · rw [if_pos hv, hv, List.count_append]
        have e1 : (if i == l.source then [l.target] else []).count x =
            if (i == l.source && l.target == x) = true then 1 else 0 := by
          by_cases hs : (i == l.source) = true <;>
            by_cases ht : (l.target == x) = true <;>
              simp [hs, ht, List.count_cons, List.count_nil]
        have e2 : (if i == l.target then [l.source] else []).count x =
            if (i == l.target && l.source == x) = true then 1 else 0 := by
          by_cases hs : (i == l.target) = true <;>
            by_cases ht : (l.source == x) = true <;>
              simp [hs, ht, List.count_cons, List.count_nil]
        rw [e1, e2]
        simp only [Bool.true_and]
      · rw [if_neg hv]
        have hv' : (hasNodeId nodes l.source && hasNodeId nodes l.target) = false :=
          Bool.not_eq_true _ ▸ Bool.of_not_eq_true hv
        simp [hv']
    omega

/-! ## Histogram lemmas -/

theorem countsOf_keys (lbls : List Nat) :
    (countsOf lbls).map Prod.fst = List.insertionSort (· ≤ ·) lbls.dedup := by
  rw [countsOf, List.map_map]
  exact List.map_id _

theorem countsOf_keys_perm_dedup (lbls : List Nat) :
    ((countsOf lbls).map Prod.fst).Perm lbls.dedup := by
  rw [countsOf_keys]
  exact List.perm_insertionSort _ _

theorem countsOf_keys_nodup (lbls : List Nat) :
    ((countsOf lbls).map Prod.fst).Nodup :=
  (countsOf_keys_perm_dedup lbls).nodup_iff.mpr (List.nodup_dedup lbls)

theorem countsOf_sum (lbls : List Nat) :
    ((countsOf lbls).map Prod.snd).sum = lbls.length := by
  rw [countsOf, List.map_map]
  have hperm : ((List.insertionSort (· ≤ ·) lbls.dedup).map
      (Prod.snd ∘ fun l => (l, lbls.count l))).Perm
      (lbls.dedup.map (fun x => lbls.count x)) :=
    (List.perm_insertionSort _ _).map _
  rw [hperm.sum_eq]
  exact List.sum_map_count_dedup_eq_length lbls

theorem countsOf_perm {lbls lbls' : List Nat} (h : lbls.Perm lbls') :
    countsOf lbls = countsOf lbls' := by
  rw [countsOf, countsOf, insertionSort_eq_of_perm (· ≤ ·) h.dedup]
  apply List.map_congr_left
  intro a _
  rw [h.count_eq]

theorem countsOf_lookup_of_mem {lbls : List Nat} {a : Nat} (h : a ∈ lbls) :
    (countsOf lbls).lookup a = some (lbls.count a) := by
  have hmem : (a, lbls.count a) ∈ countsOf lbls := by
    rw [countsOf]
    exact List.mem_map.mpr ⟨a, by
      rw [List.mem_insertionSort, List.mem_dedup]
      exact h, rfl⟩
  exact lookup_of_mem_nodup (countsOf_keys_nodup lbls) hmem

theorem countsOf_lookup_of_not_mem {lbls : List Nat} {a : Nat}
    (h : a ∉ lbls) : (countsOf lbls).lookup a = none := by
  rw [lookup_none_iff]
  intro habs
  exact h (List.mem_dedup.mp ((countsOf_keys_perm_dedup lbls).mem_iff.mp habs))

theorem mem_keys_iff_lookup_ne_none {α β : Type} [BEq α] [LawfulBEq α]
    {l : List (α × β)} {k : α} :
    k ∈ l.map Prod.fst ↔ l.lookup k ≠ none := by
  rw [ne_eq, lookup_none_iff, not_not]

/-- `areCountsEqual` decides extensional equality of the two histograms
(equal key sets, equal count at every key), provided both key lists are
duplicate-free — which holds for every histogram the engine builds. -/
theorem areCountsEqual_iff {c1 c2 : List (Nat × Nat)}
    (h1 : (c1.map Prod.fst).Nodup) (h2 : (c2.map Prod.fst).Nodup) :
    areCountsEqual c1 c2 = true ↔ ∀ l, c1.lookup l = c2.lookup l := by
  rw [areCountsEqual, Bool.and_eq_true, beq_iff_eq, List.all_eq_true]
  constructor
  · rintro ⟨hlen, hall⟩ l
    cases hv : c1.lookup l with
    | some v =>
      have hm : (l, v) ∈ c1 := lookup_mem hv
      have := hall _ hm
      rw [beq_iff_eq] at this
      exact this.symm
    | none =>
      have hsub : c1.map Prod.fst ⊆ c2.map Prod.fst := by
        intro k hk
        obtain ⟨kv, hkv, hk'⟩ := List.mem_map.mp hk
        have := hall _ hkv
        rw [beq_iff_eq] at this
        rw [← hk']
        exact List.mem_map.mpr ⟨(kv.1, kv.2), lookup_mem this, rfl⟩
      have hfin : (c1.map Prod.fst).toFinset = (c2.map Prod.fst).toFinset := by
        apply Finset.eq_of_subset_of_card_le
        · intro k hk
          exact List.mem_toFinset.mpr (hsub (List.mem_toFinset.mp hk))
        · rw [List.toFinset_card_of_nodup h1, List.toFinset_card_of_nodup h2]
          simp [hlen]
      have hl2 : l ∉ c2.map Prod.fst := by
        intro habs
        have : l ∈ c1.map Prod.fst := by
          rw [← List.mem_toFinset, hfin, List.mem_toFinset]
          exact habs
        exact (lookup_none_iff.mp hv) this
      exact (lookup_none_iff.mpr hl2).symm
  · intro hlook
    have hkeys : ∀ k, k ∈ c1.map Prod.fst ↔ k ∈ c2.map Prod.fst := by
      intro k
      rw [mem_keys_iff_lookup_ne_none, mem_keys_iff_lookup_ne_none, hlook k]
    constructor
    · have hfin : (c1.map Prod.fst).toFinset = (c2.map Prod.fst).toFinset := by
        apply Finset.ext
        intro k
        rw [List.mem_toFinset, List.mem_toFinset]
        exact hkeys k
      have := congrArg Finset.card hfin
      rw [List.toFinset_card_of_nodup h1, List.toFinset_card_of_nodup h2]
        at this
      simpa using this
    · intro kv hkv
      have hm : (kv.1, kv.2) ∈ c1 := by
        rw [Prod.mk.eta]
        exact hkv
      rw [beq_iff_eq, ← hlook kv.1]
      exact lookup_of_mem_nodup h1 hm

/-! ## Permutation enumeration lemmas -/

theorem insertsOf_sound {α : Type} {a : α} :
    ∀ {l m : List α}, m ∈ insertsOf a l → m.Perm (a :: l)
  | [], m, h => by
    simp only [insertsOf, List.mem_singleton] at h
    subst h
    exact List.Perm.refl _
  | b :: l, m, h => by
    simp only [insertsOf, List.mem_cons, List.mem_map] at h
    rcases h with rfl | ⟨m', hm', rfl⟩
    · exact List.Perm.refl _
    · exact ((insertsOf_sound hm').cons b).trans (List.Perm.swap a b l)

theorem insertsOf_complete {α : Type} (a : α) :
    ∀ (l₁ l₂ : List α), (l₁ ++ a :: l₂) ∈ insertsOf a (l₁ ++ l₂)
  | [], l₂ => by
    cases l₂ with
    | nil => simp [insertsOf]
    | cons b l => exact List.mem_cons_self _ _
  | b :: l₁, l₂ => by
    simp only [List.cons_append, insertsOf, List.mem_cons, List.mem_map]
    exact Or.inr ⟨l₁ ++ a :: l₂, insertsOf_complete a l₁ l₂, rfl⟩

theorem permsOf_sound {α : Type} :
    ∀ {l m : List α}, m ∈ permsOf l → m.Perm l
  | [], m, h => by
    simp only [permsOf, List.mem_singleton] at h
    subst h
    exact List.Perm.refl _
  | a :: l, m, h => by
    simp only [permsOf, List.mem_flatMap] at h
    obtain ⟨p, hp, hm⟩ := h
    exact (insertsOf_sound hm).trans ((permsOf_sound hp).cons a)

theorem permsOf_complete {α : Type} :
    ∀ {l m : List α}, m.Perm l → m ∈ permsOf l
  | [], m, h => by
    rw [h.eq_nil]
    simp [permsOf]
  | a :: l, m, h => by
    have ha : a ∈ m := h.mem_iff.mpr (List.mem_cons_self a l)
    obtain ⟨s, t, rfl⟩ := List.append_of_mem ha
    have hst : (s ++ t).Perm l :=
      (List.perm_middle.symm.trans h).cons_inv
    simp only [permsOf, List.mem_flatMap]
    exact ⟨s ++ t, permsOf_complete hst, insertsOf_complete a s t⟩

/-- `permsOf` enumerates exactly the permutations. -/
theorem mem_permsOf {α : Type} {l m : List α} :
    m ∈ permsOf l ↔ m.Perm l :=
  ⟨permsOf_sound, permsOf_complete⟩

/-! ## Decimal rendering: `Nat.repr` is digits-only and injective

`toString` on a JS number holding a counter value is exactly the decimal
rendering `Nat.repr`; these lemmas let us recover label equality from
signature-string equality. -/

theorem toDigitsCore_step (f n : Nat) (ds : List Char) :
    Nat.toDigitsCore 10 (f + 1) n ds =
      if n / 10 = 0 then (Nat.digitChar (n % 10)) :: ds
      else Nat.toDigitsCore 10 f (n / 10) ((Nat.digitChar (n % 10)) :: ds) :=
  rfl

theorem toDigitsCore_shift (n : Nat) :
    ∀ (f : Nat) (ds : List Char), n < f →
      Nat.toDigitsCore 10 f n ds = Nat.toDigits 10 n ++ ds := by
  induction n using Nat.strong_induction_on with
  | _ n ih =>
    intro f ds hf
    match f, hf with
    | f + 1, hf =>
      by_cases hz : n / 10 = 0
      · rw [toDigitsCore_step, if_pos hz, Nat.toDigits,
          toDigitsCore_step, if_pos hz]
        rfl
      · have h10 : 10 ≤ n := by
          by_contra hlt
          exact hz (Nat.div_eq_of_lt (by omega))
        have hdiv : n / 10 < n := Nat.div_lt_self (by omega) (by omega)
        rw [toDigitsCore_step, if_neg hz, Nat.toDigits, toDigitsCore_step,
          if_neg hz]
        rw [ih (n / 10) hdiv f _ (by omega),
          ih (n / 10) hdiv n _ (by omega)]
        simp

theorem toDigits_step (n : Nat) :
    Nat.toDigits 10 n =
      if n < 10 then [Nat.digitChar n]
      else Nat.toDigits 10 (n / 10) ++ [Nat.digitChar (n % 10)] := by
  by_cases hlt : n < 10
  · rw [if_pos hlt, Nat.toDigits, toDigitsCore_step,
      if_pos (Nat.div_eq_of_lt hlt), Nat.mod_eq_of_lt hlt]
  · have hz : ¬ n / 10 = 0 := by omega
    rw [if_neg hlt, Nat.toDigits, toDigitsCore_step, if_neg hz,
      toDigitsCore_shift (n / 10) n _
        (Nat.div_lt_self (by omega) (by omega))]

theorem digitChar_isDigit {m : Nat} (h : m < 10) :
    (Nat.digitChar m).isDigit = true := by
  revert h
  revert m
  decide

theorem toDigits_all_digits (n : Nat) :
    ∀ c ∈ Nat.toDigits 10 n, c.isDigit = true := by
  induction n using Nat.strong_induction_on with
  | _ n ih =>
    intro c hc
    rw [toDigits_step] at hc
    by_cases hlt : n < 10
    · rw [if_pos hlt] at hc
      obtain rfl := List.mem_singleton.mp hc
      exact digitChar_isDigit hlt
    · rw [if_neg hlt] at hc
      rcases List.mem_append.mp hc with hc | hc
      · exact ih (n / 10) (Nat.div_lt_self (by omega) (by omega)) c hc
      · obtain rfl := List.mem_singleton.mp hc
        exact digitChar_isDigit (Nat.mod_lt n (by omega))

theorem toDigits_ne_nil (n : Nat) : Nat.toDigits 10 n ≠ [] := by
  rw [toDigits_step]
  by_cases hlt : n < 10
  · simp [hlt]
  · simp [hlt]

theorem digitChar_inj_aux :
    ∀ a < 10, ∀ b < 10, Nat.digitChar a = Nat.digitChar b → a = b := by
  decide

theorem digitChar_inj_lt {a b : Nat} (ha : a < 10) (hb : b < 10)
    (h : Nat.digitChar a = Nat.digitChar b) : a = b :=
  digitChar_inj_aux a ha b hb h

theorem concat_inj {α : Type} {l₁ l₂ : List α} {x y : α}
    (h : l₁ ++ [x] = l₂ ++ [y]) : l₁ = l₂ ∧ x = y := by
  have hrev := congrArg List.reverse h
  simp only [List.reverse_append, List.reverse_singleton,
    List.singleton_append, List.cons.injEq] at hrev
  exact ⟨by
    have := hrev.2
    simpa using congrArg List.reverse this, hrev.1⟩

theorem toDigits_inj : ∀ {a b : Nat},
    Nat.toDigits 10 a = Nat.toDigits 10 b → a = b := by
  intro a
  induction a using Nat.strong_induction_on with
  | _ a ih =>
    intro b h
    rw [toDigits_step a, toDigits_step b] at h
    by_cases hla : a < 10 <;> by_cases hlb : b < 10
    · rw [if_pos hla, if_pos hlb] at h
      exact digitChar_inj_lt hla hlb (List.singleton_inj.mp h)
    · rw [if_pos hla, if_neg hlb] at h
      have hlen := congrArg List.length h
      rw [List.length_append, List.length_singleton,
        List.length_singleton] at hlen
      have hpos : 0 < (Nat.toDigits 10 (b / 10)).length :=
        List.length_pos.mpr (toDigits_ne_nil _)
      omega
    · rw [if_neg hla, if_pos hlb] at h
      have hlen := congrArg List.length h
      rw [List.length_append, List.length_singleton,
        List.length_singleton] at hlen
      have hpos : 0 < (Nat.toDigits 10 (a / 10)).length :=
        List.length_pos.mpr (toDigits_ne_nil _)
      omega
    · rw [if_neg hla, if_neg hlb] at h
      obtain ⟨hpre, hdig⟩ := concat_inj h
      have hdiv : a / 10 = b / 10 :=
        ih (a / 10) (Nat.div_lt_self (by omega) (by omega)) hpre
      have hmod : a % 10 = b % 10 :=
        digitChar_inj_lt (Nat.mod_lt a (by omega)) (Nat.mod_lt b (by omega))
          hdig
      omega

theorem natRepr_inj {a b : Nat} (h : Nat.repr a = Nat.repr b) : a = b :=
  toDigits_inj (congrArg String.data h)

theorem natRepr_all_digits (n : Nat) :
    ∀ c ∈ (Nat.repr n).data, c.isDigit = true :=
  toDigits_all_digits n

/-! ## Recovering the previous label from a signature string -/

theorem append_comma_cancel :
    ∀ {l₁ l₂ r₁ r₂ : List Char},
      (∀ c ∈ l₁, c.isDigit = true) → (∀ c ∈ l₂, c.isDigit = true) →
      l₁ ++ ',' :: r₁ = l₂ ++ ',' :: r₂ → l₁ = l₂ ∧ r₁ = r₂
  | [], [], _, _, _, _, h => by simpa using h
  | [], c :: l₂, r₁, r₂, _, h2, h => by
    simp only [List.nil_append, List.cons_append, List.cons.injEq] at h
    have := h2 c (List.mem_cons_self c l₂)
    rw [← h.1] at this
    simp at this
  | c :: l₁, [], r₁, r₂, h1, _, h => by
    simp only [List.nil_append, List.cons_append, List.cons.injEq] at h
    have := h1 c (List.mem_cons_self c l₁)
    rw [h.1] at this
    simp at this
  | c :: l₁, d :: l₂, r₁, r₂, h1, h2, h => by
    simp only [List.cons_append, List.cons.injEq] at h
    obtain ⟨rfl, h⟩ := h
    obtain ⟨hl, hr⟩ := append_comma_cancel
      (fun x hx => h1 x (List.mem_cons_of_mem _ hx))
      (fun x hx => h2 x (List.mem_cons_of_mem _ hx)) h
    exact ⟨by rw [hl], hr⟩

/-- Equal `k ≥ 1` signature strings have equal previous-label
components: the previous label is the digit run between `(` and the
first `,`. -/
theorem sigK_self_inj {a b : Nat} {ns ms : List Nat}
    (h : sigK a ns = sigK b ms) : a = b := by
  rw [sigK, sigK] at h
  have hd := congrArg String.data h
  simp only [String.data_append] at hd
  simp only [List.append_assoc, List.cons_append, List.nil_append,
    List.singleton_append, List.cons.injEq, true_and] at hd
  have := append_comma_cancel (natRepr_all_digits a) (natRepr_all_digits b)
    hd
  exact natRepr_inj (string_eq_of_data this.1)

/-- `sig0` is injective: equal `k = 0` signature strings come from equal
raw initial labels. -/
theorem sig0_inj : Function.Injective sig0 := by
  intro a b h
  rw [sig0, sig0] at h
  have hd := congrArg String.data h
  simp only [String.data_append] at hd
  simp only [List.singleton_append, List.cons_append, List.cons.injEq,
    true_and] at hd
  exact natRepr_inj (string_eq_of_data (List.append_left_injective [']'] hd))

/-! ## Structure of one refinement step -/

theorem nodup_map_eq_of_eq {α β : Type} {f : α → β} :
    ∀ {l : List α}, (l.map f).Nodup → ∀ {a b : α}, a ∈ l → b ∈ l →
      f a = f b → a = b := by
  intro l
  induction l with
  | nil =>
    intro _ a b ha
    simp at ha
  | cons c l ih =>
    intro h a b ha hb hf
    rw [List.map_cons, List.nodup_cons] at h
    rcases List.mem_cons.mp ha with ha' | ha' <;>
      rcases List.mem_cons.mp hb with hb' | hb'
    · rw [ha', hb']
    · subst ha'
      exact absurd (hf ▸ List.mem_map_of_mem f hb') h.1
    · subst hb'
      exact absurd (hf ▸ List.mem_map_of_mem f ha') h.1
    · exact ih h.2 ha' hb' hf

theorem mkNodeSig_graph (k : Nat) (g : GraphTag)
    (adj : String → List String) (prev : List (String × Nat)) (n : Node) :
    (mkNodeSig k g adj prev n).graph = g := by
  rw [mkNodeSig]
  split <;> rfl

theorem mkNodeSig_id (k : Nat) (g : GraphTag)
    (adj : String → List String) (prev : List (String × Nat)) (n : Node) :
    (mkNodeSig k g adj prev n).id = n.id := by
  rw [mkNodeSig]
  split <;> rfl

theorem poolSigs_filter_A (gA gB : GraphData) (k : Nat)
    (prevA prevB : List (String × Nat)) :
    (poolSigs gA gB k prevA prevB).filter (fun s => s.graph == GraphTag.A) =
      gA.nodes.map
        (mkNodeSig k GraphTag.A (getAdjacencyList gA.nodes gA.links) prevA) := by
  rw [poolSigs, List.filter_append]
  rw [List.filter_eq_self.mpr, List.filter_eq_nil_iff.mpr, List.append_nil]
  · intro s hs
    obtain ⟨n, _, rfl⟩ := List.mem_map.mp hs
    simp [mkNodeSig_graph]
  · intro s hs
    obtain ⟨n, _, rfl⟩ := List.mem_map.mp hs
    simp [mkNodeSig_graph]

theorem poolSigs_filter_B (gA gB : GraphData) (k : Nat)
    (prevA prevB : List (String × Nat)) :
    (poolSigs gA gB k prevA prevB).filter (fun s => s.graph == GraphTag.B) =
      gB.nodes.map
        (mkNodeSig k GraphTag.B (getAdjacencyList gB.nodes gB.links) prevB) := by
  rw [poolSigs, List.filter_append]
  rw [List.filter_eq_nil_iff.mpr, List.filter_eq_self.mpr, List.nil_append]
  · intro s hs
    obtain ⟨n, _, rfl⟩ := List.mem_map.mp hs
    simp [mkNodeSig_graph]
  · intro s hs
    obtain ⟨n, _, rfl⟩ := List.mem_map.mp hs
    simp [mkNodeSig_graph]

theorem uniqueSigs_sorted (sigs : List NodeSig) :
    List.Sorted strLe (uniqueSigs sigs) :=
  List.sorted_insertionSort strLe _

theorem uniqueSigs_nodup (sigs : List NodeSig) :
    (uniqueSigs sigs).Nodup :=
  ((List.perm_insertionSort strLe _).nodup_iff).mpr
    (List.nodup_dedup _)

theorem mem_uniqueSigs {sigs : List NodeSig} {s : String} :
    s ∈ uniqueSigs sigs ↔ s ∈ sigs.map (·.signature) :=
  (List.mem_insertionSort strLe).trans List.mem_dedup

/-- Step accessor: all fields of a `processStep` result, by definitional
unfolding. -/
theorem processStep_unfold (gA gB : GraphData) (k : Nat)
    (prevA prevB : List (String × Nat)) (counter : Nat) :
    processStep gA gB k prevA prevB counter =
      { step :=
          { k := k
            labelsA :=
              ((poolSigs gA gB k prevA prevB).filter
                (fun s => s.graph == GraphTag.A)).map (fun s =>
                  (s.id,
                    ((stepMappingOf gA gB k
                      (uniqueSigs (poolSigs gA gB k prevA prevB))
                      counter).lookup s.signature).getD 0))
            labelsB :=
              ((poolSigs gA gB k prevA prevB).filter
                (fun s => s.graph == GraphTag.B)).map (fun s =>
                  (s.id,
                    ((stepMappingOf gA gB k
                      (uniqueSigs (poolSigs gA gB k prevA prevB))
                      counter).lookup s.signature).getD 0))
            labelCountsA :=
              countsOf (((poolSigs gA gB k prevA prevB).filter
                (fun s => s.graph == GraphTag.A)).map (fun s =>
                  ((stepMappingOf gA gB k
                    (uniqueSigs (poolSigs gA gB k prevA prevB))
                    counter).lookup s.signature).getD 0))
            labelCountsB :=
              countsOf (((poolSigs gA gB k prevA prevB).filter
                (fun s => s.graph == GraphTag.B)).map (fun s =>
                  ((stepMappingOf gA gB k
                    (uniqueSigs (poolSigs gA gB k prevA prevB))
                    counter).lookup s.signature).getD 0))
            uniqueLabels :=
              List.insertionSort (· ≤ ·)
                (((countsOf (((poolSigs gA gB k prevA prevB).filter
                    (fun s => s.graph == GraphTag.A)).map (fun s =>
                      ((stepMappingOf gA gB k
                        (uniqueSigs (poolSigs gA gB k prevA prevB))
                        counter).lookup s.signature).getD 0))).map (·.1) ++
                  (countsOf (((poolSigs gA gB k prevA prevB).filter
                    (fun s => s.graph == GraphTag.B)).map (fun s =>
                      ((stepMappingOf gA gB k
                        (uniqueSigs (poolSigs gA gB k prevA prevB))
                        counter).lookup s.signature).getD 0))).map (·.1)).dedup)
            mappings :=
              mappingListOf gA gB k
                (uniqueSigs (poolSigs gA gB k prevA prevB)) counter
            isIsomorphicCandidate :=
              areCountsEqual
                (countsOf (((poolSigs gA gB k prevA prevB).filter
                  (fun s => s.graph == GraphTag.A)).map (fun s =>
                    ((stepMappingOf gA gB k
                      (uniqueSigs (poolSigs gA gB k prevA prevB))
                      counter).lookup s.signature).getD 0)))
                (countsOf (((poolSigs gA gB k prevA prevB).filter
                  (fun s => s.graph == GraphTag.B)).map (fun s =>
                    ((stepMappingOf gA gB k
                      (uniqueSigs (poolSigs gA gB k prevA prevB))
                      counter).lookup s.signature).getD 0))) }
        nextLabelsA :=
          ((poolSigs gA gB k prevA prevB).filter
            (fun s => s.graph == GraphTag.A)).map (fun s =>
              (s.id,
                ((stepMappingOf gA gB k
                  (uniqueSigs (poolSigs gA gB k prevA prevB))
                  counter).lookup s.signature).getD 0))
        nextLabelsB :=
          ((poolSigs gA gB k prevA prevB).filter
            (fun s => s.graph == GraphTag.B)).map (fun s =>
              (s.id,
                ((stepMappingOf gA gB k
                  (uniqueSigs (poolSigs gA gB k prevA prevB))
                  counter).lookup s.signature).getD 0))
        counter :=
          if k == 0 then counter
          else counter + (uniqueSigs (poolSigs gA gB k prevA prevB)).length } :=
  rfl

theorem stepMappingOf_pos (gA gB : GraphData) {k : Nat} (hk : k ≠ 0)
    (usigs : List String) (c : Nat) :
    stepMappingOf gA gB k usigs c =
      usigs.enum.map (fun p => (p.2, c + 1 + p.1)) := by
  rw [stepMappingOf, if_neg]
  simp [hk]

theorem stepMappingOf_keys_pos (gA gB : GraphData) {k : Nat} (hk : k ≠ 0)
    (usigs : List String) (c : Nat) :
    (stepMappingOf gA gB k usigs c).map Prod.fst = usigs := by
  rw [stepMappingOf_pos gA gB hk, List.map_map]
  have : (Prod.fst ∘ fun p : Nat × String => (p.2, c + 1 + p.1)) =
      Prod.snd := rfl
  rw [this, List.enum_map_snd]

theorem stepMappingOf_values_pos (gA gB : GraphData) {k : Nat} (hk : k ≠ 0)
    (usigs : List String) (c : Nat) :
    (stepMappingOf gA gB k usigs c).map Prod.snd =
      List.range' (c + 1) usigs.length := by
  rw [stepMappingOf_pos gA gB hk, List.map_map]
  have : (Prod.snd ∘ fun p : Nat × String => (p.2, c + 1 + p.1)) =
      (fun x => (c + 1) + x) ∘ Prod.fst := rfl
  rw [this, ← List.map_map, List.enum_map_fst, ← List.range'_eq_map_range]

theorem mappingListOf_pos (gA gB : GraphData) {k : Nat} (hk : k ≠ 0)
    (usigs : List String) (c : Nat) :
    mappingListOf gA gB k usigs c =
      usigs.enum.map (fun p =>
        ({ signature := p.2, label := c + 1 + p.1 } : HashMapping)) := by
  rw [mappingListOf, if_neg]
  simp [hk]

theorem mappingListOf_sigs_pos (gA gB : GraphData) {k : Nat} (hk : k ≠ 0)
    (usigs : List String) (c : Nat) :
    (mappingListOf gA gB k usigs c).map (·.signature) = usigs := by
  rw [mappingListOf_pos gA gB hk, List.map_map]
  have : ((fun m : HashMapping => m.signature) ∘ fun p : Nat × String =>
      ({ signature := p.2, label := c + 1 + p.1 } : HashMapping)) =
      Prod.snd := rfl
  rw [this, List.enum_map_snd]

theorem mappingListOf_labels_pos (gA gB : GraphData) {k : Nat} (hk : k ≠ 0)
    (usigs : List String) (c : Nat) :
    (mappingListOf gA gB k usigs c).map (·.label) =
      List.range' (c + 1) usigs.length := by
  rw [mappingListOf_pos gA gB hk, List.map_map]
  have : ((fun m : HashMapping => m.label) ∘ fun p : Nat × String =>
      ({ signature := p.2, label := c + 1 + p.1 } : HashMapping)) =
      (fun x => (c + 1) + x) ∘ Prod.fst := rfl
  rw [this, ← List.map_map, List.enum_map_fst, ← List.range'_eq_map_range]

theorem initLabelMapOf_keys (l : List Nat) :
    (initLabelMapOf l).map Prod.fst = l := by
  rw [initLabelMapOf, List.map_map]
  have : (Prod.fst ∘ fun p : Nat × Nat => (p.2, p.1 + 1)) = Prod.snd := rfl
  rw [this, List.enum_map_snd]

theorem initLabelMapOf_lookup {l : List Nat} (h : l.Nodup) (i : Nat)
    (hi : i < l.length) :
    (initLabelMapOf l).lookup l[i] = some (i + 1) := by
  apply lookup_of_mem_nodup
  · rw [initLabelMapOf_keys]
    exact h
  · rw [initLabelMapOf]
    refine List.mem_map.mpr ⟨(i, l[i]), ?_, rfl⟩
    have := List.getElem_enum l i (by simpa using hi)
    rw [← this]
    exact List.getElem_mem _

theorem initValues_nodup (gA gB : GraphData) :
    (initValues gA gB).Nodup :=
  ((List.perm_insertionSort _ _).nodup_iff).mpr (List.nodup_dedup _)

theorem initValues_sorted (gA gB : GraphData) :
    List.Sorted (· ≤ ·) (initValues gA gB) :=
  List.sorted_insertionSort _ _

theorem mappingListOf_zero (gA gB : GraphData) (usigs : List String)
    (c : Nat) :
    mappingListOf gA gB 0 usigs c =
      (initValues gA gB).map (fun v =>
        ({ signature := "Initial: " ++ Nat.repr v,
           label :=
             ((initLabelMapOf (initValues gA gB)).lookup v).getD 0 } :
          HashMapping)) := rfl

theorem stepMappingOf_zero (gA gB : GraphData) (usigs : List String)
    (c : Nat) :
    stepMappingOf gA gB 0 usigs c =
      (initValues gA gB).map (fun v =>
        (sig0 v,
          ((initLabelMapOf (initValues gA gB)).lookup v).getD 0)) := rfl

theorem mappingListOf_zero_labels (gA gB : GraphData) (usigs : List String)
    (c : Nat) :
    (mappingListOf gA gB 0 usigs c).map (·.label) =
      List.range' 1 (initValues gA gB).length := by
  rw [mappingListOf_zero]
  apply List.ext_get
  · simp
  · intro n h1 h2
    simp only [List.get_eq_getElem, List.getElem_map, List.map_map,
      Function.comp_apply]
    have hn : n < (initValues gA gB).length := by simpa using h1
    rw [initLabelMapOf_lookup (initValues_nodup gA gB) n hn]
    rw [List.getElem_range']
    simp [Nat.add_comm]

/-- At `k = 0`, looking a node's signature up in the step mapping gives
exactly its canonical initial label. -/
theorem stepMappingOf_zero_lookup (gA gB : GraphData) (usigs : List String)
    (c : Nat) {v : Nat} (hv : v ∈ initValues gA gB) :
    (stepMappingOf gA gB 0 usigs c).lookup (sig0 v) =
      some (((initLabelMapOf (initValues gA gB)).lookup v).getD 0) := by
  rw [stepMappingOf_zero]
  exact lookup_map_key_inj sig0_inj _ hv

/-! ## The step loop -/

theorem runSteps_length (gA gB : GraphData) :
    ∀ (rounds k : Nat) (laA laB : List (String × Nat)) (c : Nat),
      (runSteps gA gB rounds k laA laB c).length = rounds
  | 0, _, _, _, _ => rfl
  | rounds + 1, k, laA, laB, c => by
    rw [runSteps, List.length_cons, runSteps_length gA gB rounds]

theorem runSteps_map_k (gA gB : GraphData) :
    ∀ (rounds k : Nat) (laA laB : List (String × Nat)) (c : Nat),
      (runSteps gA gB rounds k laA laB c).map (·.k) =
        List.range' k rounds
  | 0, _, _, _, _ => rfl
  | rounds + 1, k, laA, laB, c => by
    rw [runSteps, List.map_cons, runSteps_map_k gA gB rounds, List.range'_succ]
    rfl

theorem runWLAlgorithm_steps_length (gA gB : GraphData) (maxK : Int) :
    (runWLAlgorithm gA gB maxK).steps.length = maxK.toNat + 1 := by
  rw [runWLAlgorithm]
  simp [runSteps_length]

theorem runWLAlgorithm_map_k (gA gB : GraphData) (maxK : Int) :
    (runWLAlgorithm gA gB maxK).steps.map (·.k) =
      List.range' 0 (maxK.toNat + 1) := by
  rw [runWLAlgorithm]
  simp only [List.map_cons, runSteps_map_k, List.range'_succ]
  rfl

/-! ## Shape of the run's steps -/

theorem runSteps_mem_shape (gA gB : GraphData) :
    ∀ (rounds k : Nat) (laA laB : List (String × Nat)) (c : Nat),
      k ≠ 0 → ∀ {st : WLStep}, st ∈ runSteps gA gB rounds k laA laB c →
      ∃ (k' : Nat) (pA pB : List (String × Nat)) (c' : Nat),
        k' ≠ 0 ∧ st = (processStep gA gB k' pA pB c').step
  | 0, _, _, _, _, _, _, h => by simp [runSteps] at h
  | rounds + 1, k, laA, laB, c, hk, st, h => by
    rw [runSteps] at h
    rcases List.mem_cons.mp h with rfl | h
    · exact ⟨k, laA, laB, c, hk, rfl⟩
    · exact runSteps_mem_shape gA gB rounds (k + 1) _ _ _ (by omega) h

/-- Every recorded step is the `step` field of some `processStep` call
on the two graphs. -/
theorem steps_mem_shape {gA gB : GraphData} {maxK : Int} {st : WLStep}
    (h : st ∈ (runWLAlgorithm gA gB maxK).steps) :
    ∃ (k' : Nat) (pA pB : List (String × Nat)) (c' : Nat),
      st = (processStep gA gB k' pA pB c').step := by
  rw [runWLAlgorithm] at h
  rcases List.mem_cons.mp h with rfl | h
  · exact ⟨0, _, _, _, rfl⟩
  · obtain ⟨k', pA, pB, c', _, hst⟩ :=
      runSteps_mem_shape gA gB _ 1 _ _ _ (by omega) h
    exact ⟨k', pA, pB, c', hst⟩

/-! ## Per-step facts -/

theorem processStep_labelsA_keys (gA gB : GraphData) (k : Nat)
    (prevA prevB : List (String × Nat)) (c : Nat) :
    (processStep gA gB k prevA prevB c).step.labelsA.map Prod.fst =
      gA.nodes.map (·.id) := by
  rw [processStep_unfold]
  rw [poolSigs_filter_A, List.map_map, List.map_map]
  apply List.map_congr_left
  intro n _
  simp [mkNodeSig_id]

theorem processStep_labelsB_keys (gA gB : GraphData) (k : Nat)
    (prevA prevB : List (String × Nat)) (c : Nat) :
    (processStep gA gB k prevA prevB c).step.labelsB.map Prod.fst =
      gB.nodes.map (·.id) := by
  rw [processStep_unfold]
  rw [poolSigs_filter_B, List.map_map, List.map_map]
  apply List.map_congr_left
  intro n _
  simp [mkNodeSig_id]

theorem processStep_countsA_sum (gA gB : GraphData) (k : Nat)
    (prevA prevB : List (String × Nat)) (c : Nat) :
    ((processStep gA gB k prevA prevB c).step.labelCountsA.map
      Prod.snd).sum = gA.nodes.length := by
  rw [processStep_unfold]
  rw [countsOf_sum, poolSigs_filter_A, List.length_map, List.length_map]

theorem processStep_countsB_sum (gA gB : GraphData) (k : Nat)
    (prevA prevB : List (String × Nat)) (c : Nat) :
    ((processStep gA gB k prevA prevB c).step.labelCountsB.map
      Prod.snd).sum = gB.nodes.length := by
  rw [processStep_unfold]
  rw [countsOf_sum, poolSigs_filter_B, List.length_map, List.length_map]

/-! ## Congruence: invalid links never matter -/

theorem stepMappingOf_congr {gA gB gA' gB' : GraphData}
    (h : initValues gA gB = initValues gA' gB') (k : Nat)
    (usigs : List String) (c : Nat) :
    stepMappingOf gA gB k usigs c = stepMappingOf gA' gB' k usigs c := by
  rw [stepMappingOf, stepMappingOf, h]

theorem mappingListOf_congr {gA gB gA' gB' : GraphData}
    (h : initValues gA gB = initValues gA' gB') (k : Nat)
    (usigs : List String) (c : Nat) :
    mappingListOf gA gB k usigs c = mappingListOf gA' gB' k usigs c := by
  rw [mappingListOf, mappingListOf, h]

theorem processStep_congr_valid (gA gB : GraphData) (k : Nat)
    (prevA prevB : List (String × Nat)) (c : Nat) :
    processStep gA gB k prevA prevB c =
      processStep { nodes := gA.nodes, links := validLinks gA }
        { nodes := gB.nodes, links := validLinks gB } k prevA prevB c := by
  have hinit : initValues gA gB =
      initValues { nodes := gA.nodes, links := validLinks gA }
        { nodes := gB.nodes, links := validLinks gB } := rfl
  have hpool : poolSigs gA gB k prevA prevB =
      poolSigs { nodes := gA.nodes, links := validLinks gA }
        { nodes := gB.nodes, links := validLinks gB } k prevA prevB := by
    rw [poolSigs, poolSigs, getAdjacencyList_validLinks gA,
      getAdjacencyList_validLinks gB]
  rw [processStep_unfold, processStep_unfold, ← hpool,
    ← stepMappingOf_congr hinit, ← mappingListOf_congr hinit]

theorem runSteps_congr_valid (gA gB : GraphData) :
    ∀ (rounds k : Nat) (laA laB : List (String × Nat)) (c : Nat),
      runSteps gA gB rounds k laA laB c =
        runSteps { nodes := gA.nodes, links := validLinks gA }
          { nodes := gB.nodes, links := validLinks gB } rounds k laA laB c
  | 0, _, _, _, _ => rfl
  | rounds + 1, k, laA, laB, c => by
    rw [runSteps, runSteps, ← processStep_congr_valid,
      runSteps_congr_valid gA gB rounds]

/-- C7 (amended): a link whose endpoint is not a known node id of its
graph never aborts the run; it is silently dropped, and the whole result
equals the run on the graphs with only the valid links kept. -/
theorem c7_dangling_links_ignored (gA gB : GraphData) (maxK : Int) :
    runWLAlgorithm gA gB maxK =
      runWLAlgorithm { nodes := gA.nodes, links := validLinks gA }
        { nodes := gB.nodes, links := validLinks gB } maxK := by
  rw [runWLAlgorithm, runWLAlgorithm, ← processStep_congr_valid,
    ← runSteps_congr_valid]
  exact rfl

/-- C7 counterexample: on a graph whose only link has a dangling target
(`zz` is not a node id), `runWLAlgorithm` does not fail: it returns a
full step record, identical to the run with the offending link removed.
No `InvalidGraphReference` failure exists in the code. -/
theorem c7_counterexample :
    (runWLAlgorithm danglingG singleB 0).steps.length = 1 ∧
    runWLAlgorithm danglingG singleB 0 =
      runWLAlgorithm { nodes := danglingG.nodes, links := [] } singleB 0 := by
  decide

/-- C8 (amended): there is no `InvalidHorizon` failure.  For every
`maxK`, the run returns `max(maxK, 0) + 1` step records carrying
`k = 0, 1, ...` in order; in particular for `maxK ≥ 0` the length is
exactly `maxK + 1`, while for `maxK < 0` the `k = 0` record is still
produced. -/
theorem c8_all_or_nothing (gA gB : GraphData) (maxK : Int) :
    (runWLAlgorithm gA gB maxK).steps.length = maxK.toNat + 1 ∧
    (runWLAlgorithm gA gB maxK).steps.map (·.k) =
      List.range' 0 (maxK.toNat + 1) ∧
    (0 ≤ maxK →
      ((runWLAlgorithm gA gB maxK).steps.length : Int) = maxK + 1) := by
  refine ⟨runWLAlgorithm_steps_length gA gB maxK,
    runWLAlgorithm_map_k gA gB maxK, ?_⟩
  intro h
  rw [runWLAlgorithm_steps_length]
  omega

theorem c8_witness :
    (0 : Int) ≤ 2 ∧ ((runWLAlgorithm pathG starG 2).steps.length : Int) = 2 + 1 :=
  ⟨by decide, (c8_all_or_nothing pathG starG 2).2.2 (by decide)⟩

/-- C8 counterexample: at `maxK = -1` the run does not fail and steps
are usable — it returns exactly the `k = 0` record (length 1, not
`maxK + 1 = 0`, and no `InvalidHorizon` error exists in the code). -/
theorem c8_counterexample :
    (runWLAlgorithm pathG starG (-1)).steps.map (·.k) = [0] := by
  decide

/-- C3: at every step of every run, `isIsomorphicCandidate` is `true`
iff the two histograms agree as maps: the same LabelId keys, each with
the same count (so it is `false` whenever a key occurs in only one of
them, even with equally many keys: then the lookups differ at that
key). -/
theorem c3_candidate_iff_histograms (gA gB : GraphData) (maxK : Int) :
    ∀ st ∈ (runWLAlgorithm gA gB maxK).steps,
      (st.isIsomorphicCandidate = true ↔
        ∀ l : Nat, st.labelCountsA.lookup l = st.labelCountsB.lookup l) := by
  intro st hst
  obtain ⟨k, pA, pB, c, rfl⟩ := steps_mem_shape hst
  simp only [processStep_unfold]
  exact areCountsEqual_iff (countsOf_keys_nodup _) (countsOf_keys_nodup _)

theorem c3_witness :
    (runWLAlgorithm pathG starG 2).steps.getD 0 emptyStep ∈
      (runWLAlgorithm pathG starG 2).steps ∧
    (((runWLAlgorithm pathG starG 2).steps.getD 0
        emptyStep).isIsomorphicCandidate = true ↔
      ∀ l : Nat,
        ((runWLAlgorithm pathG starG 2).steps.getD 0
          emptyStep).labelCountsA.lookup l =
        ((runWLAlgorithm pathG starG 2).steps.getD 0
          emptyStep).labelCountsB.lookup l) :=
  ⟨by decide,
    c3_candidate_iff_histograms pathG starG 2 _ (by decide)⟩

/-- C4: at every step of every run, the histogram of each graph sums to
that graph's node count, and the step's per-graph label map has exactly
the graph's node ids as keys — one key per node (duplicate-free provided
the input node ids are duplicate-free, as the data model requires). -/
theorem c4_conservation (gA gB : GraphData) (maxK : Int)
    (hA : (gA.nodes.map (·.id)).Nodup) (hB : (gB.nodes.map (·.id)).Nodup) :
    ∀ st ∈ (runWLAlgorithm gA gB maxK).steps,
      (st.labelCountsA.map Prod.snd).sum = gA.nodes.length ∧
      (st.labelCountsB.map Prod.snd).sum = gB.nodes.length ∧
      st.labelsA.map Prod.fst = gA.nodes.map (·.id) ∧
      st.labelsB.map Prod.fst = gB.nodes.map (·.id) ∧
      (st.labelsA.map Prod.fst).Nodup ∧
      (st.labelsB.map Prod.fst).Nodup := by
  intro st hst
  obtain ⟨k, pA, pB, c, rfl⟩ := steps_mem_shape hst
  refine ⟨processStep_countsA_sum gA gB k pA pB c,
    processStep_countsB_sum gA gB k pA pB c,
    processStep_labelsA_keys gA gB k pA pB c,
    processStep_labelsB_keys gA gB k pA pB c, ?_, ?_⟩
  · rw [processStep_labelsA_keys gA gB k pA pB c]
    exact hA
  · rw [processStep_labelsB_keys gA gB k pA pB c]
    exact hB

theorem c4_witness :
    ((pathG.nodes.map (·.id)).Nodup ∧ (starG.nodes.map (·.id)).Nodup) ∧
    ((((runWLAlgorithm pathG starG 2).steps.getD 0
        emptyStep).labelCountsA.map Prod.snd).sum = pathG.nodes.length) :=
  ⟨⟨by decide, by decide⟩,
    (c4_conservation pathG starG 2 (by decide) (by decide) _ (by decide)).1⟩

set_option maxRecDepth 100000 in
/-- C9: on the `CYCLES` scenario (graph A a single 6-cycle, graph B two
disjoint 3-cycles, every initial label 1) with `maxK = 5`, each of the
six steps has a single-key histogram mapping its key to 6 on both sides
and verdict `true`, although the graphs are not isomorphic (no
label-preserving adjacency-preserving matching of the node lists exists;
by `mem_permsOf`, `permsOf` ranges over all permutations). -/
theorem c9_known_incompleteness :
    (runWLAlgorithm cycleC6 twoC3 5).steps.length = 6 ∧
    ((runWLAlgorithm cycleC6 twoC3 5).steps.all (fun st =>
      (st.labelCountsA.map Prod.snd == [6]) &&
      (st.labelCountsB.map Prod.snd == [6]) &&
      st.isIsomorphicCandidate)) = true ∧
    decide (graphIso cycleC6 twoC3) = false := by
  decide

/-- C10: adjacency is built with multiplicity: the number of occurrences
of `x` in the neighbour list of `i` is the number of kept link
occurrences `(i, x)` plus the number of kept link occurrences `(x, i)`
— so a duplicated link contributes twice, and a self-loop `(i, i)`
contributes two occurrences of `i` itself.  At `k ≠ 0` the signature's
neighbour multiset is exactly the previous-step labels of that adjacency
list (as a permutation, i.e. with multiplicity), and the signature
string is built from it. -/
theorem c10_adjacency_multiplicity (nodes : List Node) (links : List Link)
    (i x : String) (k : Nat) (hk : k ≠ 0) (g : GraphTag)
    (prev : List (String × Nat)) (n : Node) :
    ((getAdjacencyList nodes links i).count x =
      links.countP (fun l =>
        hasNodeId nodes l.source && hasNodeId nodes l.target &&
        (i == l.source && l.target == x)) +
      links.countP (fun l =>
        hasNodeId nodes l.source && hasNodeId nodes l.target &&
        (i == l.target && l.source == x))) ∧
    (mkNodeSig k g (getAdjacencyList nodes links) prev n).neighbors.Perm
      ((getAdjacencyList nodes links n.id).map
        (fun nid => (prev.lookup nid).getD 0)) ∧
    (mkNodeSig k g (getAdjacencyList nodes links) prev n).signature =
      sigK ((prev.lookup n.id).getD 0)
        (mkNodeSig k g (getAdjacencyList nodes links) prev n).neighbors := by
  refine ⟨count_getAdjacencyList nodes links i x, ?_, ?_⟩
  · rw [mkNodeSig, if_neg (by simp [hk])]
    exact List.perm_insertionSort _ _
  · rw [mkNodeSig, if_neg (by simp [hk])]

theorem c10_witness :
    (1 : Nat) ≠ 0 ∧
    (getAdjacencyList loopG.nodes loopG.links "a").count "a" = 2 :=
  ⟨by decide, by
    have h := (c10_adjacency_multiplicity loopG.nodes loopG.links "a" "a" 1
      (by decide) GraphTag.A [("a", 5)] ⟨"a", 1⟩).1
    rw [h]
    decide⟩

/-! ## LabelId freshness -/

theorem processStep_mappings_labels_zero (gA gB : GraphData)
    (pA pB : List (String × Nat)) (c : Nat) :
    (processStep gA gB 0 pA pB c).step.mappings.map (·.label) =
      List.range' 1 (initValues gA gB).length := by
  simp only [processStep_unfold]
  exact mappingListOf_zero_labels gA gB _ c

theorem processStep_mappings_labels_pos (gA gB : GraphData) {k : Nat}
    (hk : k ≠ 0) (pA pB : List (String × Nat)) (c : Nat) :
    (processStep gA gB k pA pB c).step.mappings.map (·.label) =
      List.range' (c + 1) (uniqueSigs (poolSigs gA gB k pA pB)).length := by
  simp only [processStep_unfold]
  exact mappingListOf_labels_pos gA gB hk _ c

theorem processStep_mappings_labels_nodup (gA gB : GraphData) (k : Nat)
    (pA pB : List (String × Nat)) (c : Nat) :
    ((processStep gA gB k pA pB c).step.mappings.map (·.label)).Nodup := by
  by_cases hk : k = 0
  · subst hk
    rw [processStep_mappings_labels_zero]
    exact List.nodup_range' _ _
  · rw [processStep_mappings_labels_pos gA gB hk]
    exact List.nodup_range' _ _

theorem processStep_counter_pos (gA gB : GraphData) {k : Nat} (hk : k ≠ 0)
    (pA pB : List (String × Nat)) (c : Nat) :
    (processStep gA gB k pA pB c).counter =
      c + (uniqueSigs (poolSigs gA gB k pA pB)).length := by
  simp only [processStep_unfold]
  rw [if_neg]
  simp [hk]

theorem processStep_labels_pos_bound (gA gB : GraphData) {k : Nat}
    (hk : k ≠ 0) (pA pB : List (String × Nat)) (c : Nat) :
    ∀ l ∈ (processStep gA gB k pA pB c).step.mappings.map (·.label),
      c < l ∧ l ≤ (processStep gA gB k pA pB c).counter := by
  intro l hl
  rw [processStep_mappings_labels_pos gA gB hk, List.mem_range'_1] at hl
  rw [processStep_counter_pos gA gB hk]
  omega

theorem processStep_labels_zero_bound (gA gB : GraphData)
    (pA pB : List (String × Nat)) (c : Nat) :
    ∀ l ∈ (processStep gA gB 0 pA pB c).step.mappings.map (·.label),
      1 ≤ l ∧ l ≤ (initValues gA gB).length := by
  intro l hl
  rw [processStep_mappings_labels_zero, List.mem_range'_1] at hl
  omega

theorem runSteps_labels_gt (gA gB : GraphData) :
    ∀ (rounds k : Nat) (laA laB : List (String × Nat)) (c : Nat),
      k ≠ 0 → ∀ st ∈ runSteps gA gB rounds k laA laB c,
      ∀ l ∈ st.mappings.map (·.label), c < l
  | 0, _, _, _, _, _, st, hst => by simp [runSteps] at hst
  | rounds + 1, k, laA, laB, c, hk, st, hst => by
    rw [runSteps] at hst
    rcases List.mem_cons.mp hst with rfl | hst
    · intro l hl
      exact (processStep_labels_pos_bound gA gB hk laA laB c l hl).1
    · intro l hl
      have hgt := runSteps_labels_gt gA gB rounds (k + 1) _ _ _
        (by omega) st hst l hl
      rw [processStep_counter_pos gA gB hk] at hgt
      omega

theorem runSteps_labels_pairwise (gA gB : GraphData) :
    ∀ (rounds k : Nat) (laA laB : List (String × Nat)) (c : Nat),
      k ≠ 0 →
      List.Pairwise (fun s t => ∀ l1 ∈ s.mappings.map (·.label),
        ∀ l2 ∈ t.mappings.map (·.label), l1 < l2)
        (runSteps gA gB rounds k laA laB c)
  | 0, _, _, _, _, _ => List.Pairwise.nil
  | rounds + 1, k, laA, laB, c, hk => by
    rw [runSteps, List.pairwise_cons]
    constructor
    · intro t ht l1 hl1 l2 hl2
      have h1 := (processStep_labels_pos_bound gA gB hk laA laB c l1 hl1).2
      have h2 := runSteps_labels_gt gA gB rounds (k + 1) _ _ _
        (by omega) t ht l2 hl2
      omega
    · exact runSteps_labels_pairwise gA gB rounds (k + 1) _ _ _ (by omega)

/-- C6: within any single step of one run, no LabelId value is assigned
to two different signatures (the step's mapping rows have
pairwise-distinct labels, so equal labels force equal signature rows);
and across the steps of a run a LabelId minted at one step never
reappears in the mapping of any other step (labels of distinct steps are
pairwise distinct — in fact strictly increasing with the step index). -/
theorem c6_global_id_uniqueness (gA gB : GraphData) (maxK : Int) :
    (∀ st ∈ (runWLAlgorithm gA gB maxK).steps,
      ∀ m1 ∈ st.mappings, ∀ m2 ∈ st.mappings,
        m1.label = m2.label → m1.signature = m2.signature) ∧
    List.Pairwise (fun s t => ∀ l1 ∈ s.mappings.map (·.label),
      ∀ l2 ∈ t.mappings.map (·.label), l1 ≠ l2)
      (runWLAlgorithm gA gB maxK).steps := by
  constructor
  · intro st hst m1 hm1 m2 hm2 hlbl
    obtain ⟨k, pA, pB, c, rfl⟩ := steps_mem_shape hst
    have hnd := processStep_mappings_labels_nodup gA gB k pA pB c
    have := nodup_map_eq_of_eq hnd hm1 hm2 hlbl
    rw [this]
  · have hlt : List.Pairwise (fun s t => ∀ l1 ∈ s.mappings.map (·.label),
        ∀ l2 ∈ t.mappings.map (·.label), l1 < l2)
        (runWLAlgorithm gA gB maxK).steps := by
      rw [runWLAlgorithm, List.pairwise_cons]
      constructor
      · intro t ht l1 hl1 l2 hl2
        have h1 := processStep_labels_zero_bound gA gB _ _ _ l1 hl1
        have h2 := runSteps_labels_gt gA gB _ 1 _ _ _ (by omega) t ht l2 hl2
        have hc : (processStep gA gB 0 (initLabels gA gB gA.nodes)
            (initLabels gA gB gB.nodes)
            (initValues gA gB).length).counter =
            (initValues gA gB).length := rfl
        rw [hc] at h2
        omega
      · exact runSteps_labels_pairwise gA gB _ 1 _ _ _ (by omega)
    exact hlt.imp (fun h l1 hl1 l2 hl2 => Nat.ne_of_lt (h l1 hl1 l2 hl2))

theorem c6_witness :
    (((runWLAlgorithm pathG starG 2).steps.getD 0 emptyStep).mappings.getD 0
        ⟨"", 0⟩).signature =
      (((runWLAlgorithm pathG starG 2).steps.getD 0 emptyStep).mappings.getD 0
        ⟨"", 0⟩).signature :=
  (c6_global_id_uniqueness pathG starG 2).1
    ((runWLAlgorithm pathG starG 2).steps.getD 0 emptyStep) (by decide)
    (((runWLAlgorithm pathG starG 2).steps.getD 0 emptyStep).mappings.getD 0
      ⟨"", 0⟩) (by decide)
    (((runWLAlgorithm pathG starG 2).steps.getD 0 emptyStep).mappings.getD 0
      ⟨"", 0⟩) (by decide) rfl

/-! ## Back-propagation of label equality (refinement) -/

theorem taggedPrev_stepLabels (st : WLStep) (t : GraphTag) :
    taggedPrev st.labelsA st.labelsB t = stepLabels st t := by
  cases t <;> rfl

theorem mkNodeSig_signature_pos {k : Nat} (hk : k ≠ 0) (g : GraphTag)
    (adj : String → List String) (prev : List (String × Nat)) (n : Node) :
    (mkNodeSig k g adj prev n).signature =
      sigK ((prev.lookup n.id).getD 0)
        (List.insertionSort (· ≤ ·)
          ((adj n.id).map (fun nid => (prev.lookup nid).getD 0))) := by
  rw [mkNodeSig, if_neg (by simp [hk])]

theorem mkNodeSig_mem_pool {gA gB : GraphData} (k : Nat)
    (pA pB : List (String × Nat)) (t : GraphTag) {n : Node}
    (hn : n ∈ taggedNodes gA gB t) :
    mkNodeSig k t (taggedAdj gA gB t) (taggedPrev pA pB t) n ∈
      poolSigs gA gB k pA pB := by
  cases t
  · exact List.mem_append.mpr (Or.inl (List.mem_map_of_mem _ hn))
  · exact List.mem_append.mpr (Or.inr (List.mem_map_of_mem _ hn))

theorem mkNodeSig_sig_mem_uniqueSigs {gA gB : GraphData} (k : Nat)
    (pA pB : List (String × Nat)) (t : GraphTag) {n : Node}
    (hn : n ∈ taggedNodes gA gB t) :
    (mkNodeSig k t (taggedAdj gA gB t) (taggedPrev pA pB t) n).signature ∈
      uniqueSigs (poolSigs gA gB k pA pB) :=
  mem_uniqueSigs.mpr (List.mem_map_of_mem _ (mkNodeSig_mem_pool k pA pB t hn))

theorem stepMapping_lookup_isSome {gA gB : GraphData} {k : Nat}
    (hk : k ≠ 0) {pA pB : List (String × Nat)} {c : Nat} {s : String}
    (hs : s ∈ uniqueSigs (poolSigs gA gB k pA pB)) :
    ∃ v, (stepMappingOf gA gB k (uniqueSigs (poolSigs gA gB k pA pB))
      c).lookup s = some v := by
  have : s ∈ (stepMappingOf gA gB k
      (uniqueSigs (poolSigs gA gB k pA pB)) c).map Prod.fst := by
    rw [stepMappingOf_keys_pos gA gB hk]
    exact hs
  rw [mem_keys_iff_lookup_ne_none] at this
  exact Option.ne_none_iff_exists'.mp this

theorem stepMapping_values_nodup (gA gB : GraphData) {k : Nat}
    (hk : k ≠ 0) (usigs : List String) (c : Nat) :
    ((stepMappingOf gA gB k usigs c).map Prod.snd).Nodup := by
  rw [stepMappingOf_values_pos gA gB hk]
  exact List.nodup_range' _ _

/-- At `k ≥ 1`, equal freshly assigned labels come from equal
signatures: the step mapping never assigns one LabelId to two different
signatures. -/
theorem stepMapping_label_inj {gA gB : GraphData} {k : Nat} (hk : k ≠ 0)
    {pA pB : List (String × Nat)} {c : Nat} {s1 s2 : String} {v : Nat}
    (h1 : (stepMappingOf gA gB k (uniqueSigs (poolSigs gA gB k pA pB))
      c).lookup s1 = some v)
    (h2 : (stepMappingOf gA gB k (uniqueSigs (poolSigs gA gB k pA pB))
      c).lookup s2 = some v) : s1 = s2 := by
  have hm1 := lookup_mem h1
  have hm2 := lookup_mem h2
  have := nodup_map_eq_of_eq
    (stepMapping_values_nodup gA gB hk
      (uniqueSigs (poolSigs gA gB k pA pB)) c) hm1 hm2 rfl
  exact congrArg Prod.fst this

theorem taggedNodes_nodup {gA gB : GraphData}
    (hA : (gA.nodes.map (·.id)).Nodup) (hB : (gB.nodes.map (·.id)).Nodup)
    (t : GraphTag) : ((taggedNodes gA gB t).map (·.id)).Nodup := by
  cases t
  · exact hA
  · exact hB

/-- The step's per-graph label map, looked up at a node of that graph:
the freshly assigned label of that node's signature. -/
theorem processStep_stepLabels_lookup (gA gB : GraphData) (k : Nat)
    (pA pB : List (String × Nat)) (c : Nat) (t : GraphTag)
    (hnd : ((taggedNodes gA gB t).map (·.id)).Nodup)
    {n : Node} (hn : n ∈ taggedNodes gA gB t) :
    (stepLabels (processStep gA gB k pA pB c).step t).lookup n.id =
      some (((stepMappingOf gA gB k (uniqueSigs (poolSigs gA gB k pA pB))
        c).lookup
        (mkNodeSig k t (taggedAdj gA gB t) (taggedPrev pA pB t)
          n).signature).getD 0) := by
  cases t
  · simp only [stepLabels, taggedNodes, taggedAdj, taggedPrev,
      processStep_unfold] at hnd hn ⊢
    rw [poolSigs_filter_A, List.map_map]
    apply lookup_of_mem_nodup
    · have hkeys : ((gA.nodes.map ((fun s =>
          (s.id,
            ((stepMappingOf gA gB k (uniqueSigs (poolSigs gA gB k pA pB))
              c).lookup s.signature).getD 0)) ∘
          mkNodeSig k GraphTag.A
            (getAdjacencyList gA.nodes gA.links) pA)).map Prod.fst) =
          gA.nodes.map (·.id) := by
        rw [List.map_map]
        apply List.map_congr_left
        intro m _
        simp [mkNodeSig_id]
      rw [hkeys]
      exact hnd
    · refine List.mem_map.mpr ⟨n, hn, ?_⟩
      simp [mkNodeSig_id]
  · simp only [stepLabels, taggedNodes, taggedAdj, taggedPrev,
      processStep_unfold] at hnd hn ⊢
    rw [poolSigs_filter_B, List.map_map]
    apply lookup_of_mem_nodup
    · have hkeys : ((gB.nodes.map ((fun s =>
          (s.id,
            ((stepMappingOf gA gB k (uniqueSigs (poolSigs gA gB k pA pB))
              c).lookup s.signature).getD 0)) ∘
          mkNodeSig k GraphTag.B
            (getAdjacencyList gB.nodes gB.links) pB)).map Prod.fst) =
          gB.nodes.map (·.id) := by
        rw [List.map_map]
        apply List.map_congr_left
        intro m _
        simp [mkNodeSig_id]
      rw [hkeys]
      exact hnd
    · refine List.mem_map.mpr ⟨n, hn, ?_⟩
      simp [mkNodeSig_id]

/-- One refinement round never separates-then-merges: the labels its
step assigns refine the previous-step labels it was given. -/
theorem processStep_refines (gA gB : GraphData) {k : Nat} (hk : k ≠ 0)
    (pA pB : List (String × Nat)) (c : Nat)
    (hA : (gA.nodes.map (·.id)).Nodup) (hB : (gB.nodes.map (·.id)).Nodup)
    (hkA : pA.map Prod.fst = gA.nodes.map (·.id))
    (hkB : pB.map Prod.fst = gB.nodes.map (·.id)) :
    RefinesMaps gA gB pA pB (processStep gA gB k pA pB c).step := by
  intro t1 t2 n1 n2 hn1 hn2 heq
  rw [processStep_stepLabels_lookup gA gB k pA pB c t1
      (taggedNodes_nodup hA hB t1) hn1,
    processStep_stepLabels_lookup gA gB k pA pB c t2
      (taggedNodes_nodup hA hB t2) hn2] at heq
  obtain ⟨v1, hv1⟩ := stepMapping_lookup_isSome hk
    (mkNodeSig_sig_mem_uniqueSigs k pA pB t1 hn1)
  obtain ⟨v2, hv2⟩ := stepMapping_lookup_isSome hk
    (mkNodeSig_sig_mem_uniqueSigs k pA pB t2 hn2)
  rw [hv1, hv2] at heq
  simp only [Option.getD_some, Option.some.injEq] at heq
  subst heq
  have hsig := stepMapping_label_inj hk hv1 hv2
  rw [mkNodeSig_signature_pos hk, mkNodeSig_signature_pos hk] at hsig
  have hprev := sigK_self_inj hsig
  have hx1 : ∃ x, (taggedPrev pA pB t1).lookup n1.id = some x := by
    have : n1.id ∈ (taggedPrev pA pB t1).map Prod.fst := by
      cases t1
      · rw [taggedPrev, hkA]
        exact List.mem_map.mpr ⟨n1, hn1, rfl⟩
      · rw [taggedPrev, hkB]
        exact List.mem_map.mpr ⟨n1, hn1, rfl⟩
    rw [mem_keys_iff_lookup_ne_none] at this
    exact Option.ne_none_iff_exists'.mp this
  have hx2 : ∃ x, (taggedPrev pA pB t2).lookup n2.id = some x := by
    have : n2.id ∈ (taggedPrev pA pB t2).map Prod.fst := by
      cases t2
      · rw [taggedPrev, hkA]
        exact List.mem_map.mpr ⟨n2, hn2, rfl⟩
      · rw [taggedPrev, hkB]
        exact List.mem_map.mpr ⟨n2, hn2, rfl⟩
    rw [mem_keys_iff_lookup_ne_none] at this
    exact Option.ne_none_iff_exists'.mp this
  obtain ⟨x1, hx1⟩ := hx1
  obtain ⟨x2, hx2⟩ := hx2
  rw [hx1, hx2] at hprev ⊢
  simp only [Option.getD_some] at hprev
  rw [hprev]

theorem originalLabel_mem_initValues {gA gB : GraphData} (t : GraphTag)
    {n : Node} (hn : n ∈ taggedNodes gA gB t) :
    n.originalLabel ∈ initValues gA gB := by
  rw [initValues, List.mem_insertionSort, List.mem_dedup]
  cases t
  · exact List.mem_append.mpr (Or.inl (List.mem_map_of_mem _ hn))
  · exact List.mem_append.mpr (Or.inr (List.mem_map_of_mem _ hn))

/-- The `k = 0` record's label maps are exactly the canonical initial
label maps (whatever previous maps were passed in). -/
theorem processStep_zero_labelsA (gA gB : GraphData)
    (pA pB : List (String × Nat)) (c : Nat) :
    (processStep gA gB 0 pA pB c).step.labelsA =
      initLabels gA gB gA.nodes := by
  simp only [processStep_unfold]
  rw [poolSigs_filter_A, List.map_map, initLabels]
  apply List.map_congr_left
  intro n hn
  have hv : n.originalLabel ∈ initValues gA gB :=
    originalLabel_mem_initValues GraphTag.A hn
  have hmk : mkNodeSig 0 GraphTag.A (getAdjacencyList gA.nodes gA.links)
      pA n =
      ⟨GraphTag.A, n.id, sig0 n.originalLabel, n.originalLabel, []⟩ := rfl
  simp only [Function.comp_apply, hmk]
  rw [stepMappingOf_zero_lookup gA gB _ c hv]
  rfl

theorem processStep_zero_labelsB (gA gB : GraphData)
    (pA pB : List (String × Nat)) (c : Nat) :
    (processStep gA gB 0 pA pB c).step.labelsB =
      initLabels gA gB gB.nodes := by
  simp only [processStep_unfold]
  rw [poolSigs_filter_B, List.map_map, initLabels]
  apply List.map_congr_left
  intro n hn
  have hv : n.originalLabel ∈ initValues gA gB :=
    originalLabel_mem_initValues GraphTag.B hn
  have hmk : mkNodeSig 0 GraphTag.B (getAdjacencyList gB.nodes gB.links)
      pB n =
      ⟨GraphTag.B, n.id, sig0 n.originalLabel, n.originalLabel, []⟩ := rfl
  simp only [Function.comp_apply, hmk]
  rw [stepMappingOf_zero_lookup gA gB _ c hv]
  rfl

theorem initLabels_keys (gA gB : GraphData) (nodes : List Node) :
    (initLabels gA gB nodes).map Prod.fst = nodes.map (·.id) := by
  rw [initLabels, List.map_map]
  rfl

theorem runSteps_refines (gA gB : GraphData)
    (hA : (gA.nodes.map (·.id)).Nodup) (hB : (gB.nodes.map (·.id)).Nodup) :
    ∀ (rounds k : Nat) (laA laB : List (String × Nat)) (c : Nat),
      k ≠ 0 →
      laA.map Prod.fst = gA.nodes.map (·.id) →
      laB.map Prod.fst = gB.nodes.map (·.id) →
      List.Pairwise (StepRefines gA gB)
        (runSteps gA gB rounds k laA laB c) ∧
      ∀ st ∈ runSteps gA gB rounds k laA laB c,
        RefinesMaps gA gB laA laB st
  | 0, _, _, _, _, _, _, _ => by
    constructor
    · exact List.Pairwise.nil
    · intro st hst
      simp [runSteps] at hst
  | rounds + 1, k, laA, laB, c, hk, hkA, hkB => by
    have hkA' : (processStep gA gB k laA laB c).nextLabelsA.map Prod.fst =
        gA.nodes.map (·.id) := processStep_labelsA_keys gA gB k laA laB c
    have hkB' : (processStep gA gB k laA laB c).nextLabelsB.map Prod.fst =
        gB.nodes.map (·.id) := processStep_labelsB_keys gA gB k laA laB c
    obtain ⟨hpw, hall⟩ := runSteps_refines gA gB hA hB rounds (k + 1)
      (processStep gA gB k laA laB c).nextLabelsA
      (processStep gA gB k laA laB c).nextLabelsB
      (processStep gA gB k laA laB c).counter (by omega) hkA' hkB'
    have hhead : RefinesMaps gA gB laA laB
        (processStep gA gB k laA laB c).step :=
      processStep_refines gA gB hk laA laB c hA hB hkA hkB
    rw [runSteps]
    constructor
    · rw [List.pairwise_cons]
      exact ⟨fun t ht => hall t ht, hpw⟩
    · intro st hst
      rcases List.mem_cons.mp hst with rfl | hst
      · exact hhead
      · intro t1 t2 n1 n2 hn1 hn2 heq
        have hmid := hall st hst t1 t2 n1 n2 hn1 hn2 heq
        have hnlA : (processStep gA gB k laA laB c).nextLabelsA =
            (processStep gA gB k laA laB c).step.labelsA := rfl
        have hnlB : (processStep gA gB k laA laB c).nextLabelsB =
            (processStep gA gB k laA laB c).step.labelsB := rfl
        rw [hnlA, hnlB, taggedPrev_stepLabels, taggedPrev_stepLabels] at hmid
        exact hhead t1 t2 n1 n2 hn1 hn2 hmid

/-- Across the whole run, later steps' labels always refine earlier
steps' labels. -/
theorem runWLAlgorithm_pairwise_refines (gA gB : GraphData) (maxK : Int)
    (hA : (gA.nodes.map (·.id)).Nodup) (hB : (gB.nodes.map (·.id)).Nodup) :
    List.Pairwise (StepRefines gA gB) (runWLAlgorithm gA gB maxK).steps := by
  rw [runWLAlgorithm, List.pairwise_cons]
  obtain ⟨hpw, hall⟩ := runSteps_refines gA gB hA hB maxK.toNat 1
    (initLabels gA gB gA.nodes) (initLabels gA gB gB.nodes)
    (processStep gA gB 0 (initLabels gA gB gA.nodes)
      (initLabels gA gB gB.nodes) (initValues gA gB).length).counter
    (by omega) (initLabels_keys gA gB gA.nodes) (initLabels_keys gA gB gB.nodes)
  constructor
  · intro t ht
    rw [StepRefines, processStep_zero_labelsA, processStep_zero_labelsB]
    exact hall t ht
  · exact hpw

/-- C5: refinement never re-merges classes it has split.  For any two
nodes (in the same or different graphs) and any two step indices
`i < j` of one run: if their labels differ at step `i`, they differ at
step `j`.  (Contrapositive of: the labels of a later step always refine
the labels of an earlier step.)  Node ids are assumed unique per graph,
as the data model requires. -/
theorem c5_never_merge (gA gB : GraphData) (maxK : Int)
    (hA : (gA.nodes.map (·.id)).Nodup) (hB : (gB.nodes.map (·.id)).Nodup)
    (i j : Nat) (hi : i < (runWLAlgorithm gA gB maxK).steps.length)
    (hj : j < (runWLAlgorithm gA gB maxK).steps.length) (hij : i < j)
    (t1 t2 : GraphTag) (n1 n2 : Node)
    (hn1 : n1 ∈ taggedNodes gA gB t1) (hn2 : n2 ∈ taggedNodes gA gB t2)
    (hne : (stepLabels ((runWLAlgorithm gA gB maxK).steps.get ⟨i, hi⟩)
        t1).lookup n1.id ≠
      (stepLabels ((runWLAlgorithm gA gB maxK).steps.get ⟨i, hi⟩)
        t2).lookup n2.id) :
    (stepLabels ((runWLAlgorithm gA gB maxK).steps.get ⟨j, hj⟩)
        t1).lookup n1.id ≠
      (stepLabels ((runWLAlgorithm gA gB maxK).steps.get ⟨j, hj⟩)
        t2).lookup n2.id := by
  intro heq
  have hpw := runWLAlgorithm_pairwise_refines gA gB maxK hA hB
  have hR := List.pairwise_iff_get.mp hpw ⟨i, hi⟩ ⟨j, hj⟩ hij
  have hback := hR t1 t2 n1 n2 hn1 hn2 heq
  rw [taggedPrev_stepLabels, taggedPrev_stepLabels] at hback
  exact hne hback

theorem c5_witness :
    (stepLabels ((runWLAlgorithm pathG starG 2).steps.get ⟨1, by decide⟩)
        GraphTag.A).lookup (Node.id ⟨"P0", 2⟩) ≠
      (stepLabels ((runWLAlgorithm pathG starG 2).steps.get ⟨1, by decide⟩)
        GraphTag.A).lookup (Node.id ⟨"P1", 1⟩) :=
  c5_never_merge pathG starG 2 (by decide) (by decide) 0 1 (by decide)
    (by decide) (by decide) GraphTag.A GraphTag.A ⟨"P0", 2⟩ ⟨"P1", 1⟩
    (by decide) (by decide) (by decide)

/-- C2: at every refinement step `k ≥ 1`: (1) each node's signature is
built from its own previous-step label and the multiset of its
neighbours' previous-step labels sorted ascending by numeric value;
(2) the step's mapping rows list signature strings that are
lexicographically sorted, duplicate-free, and exactly the signature
strings pooled from all nodes of both graphs; (3) the fresh LabelIds are
the consecutive values `c+1, c+2, ...` of the still-running global
counter, listed in that same lexicographic order. -/
theorem c2_signature_and_pooling (gA gB : GraphData) (k : Nat)
    (hk : k ≠ 0) (prevA prevB : List (String × Nat)) (c : Nat) :
    (∀ (t : GraphTag) (n : Node), n ∈ taggedNodes gA gB t →
      ∃ ns : List Nat, List.Sorted (· ≤ ·) ns ∧
        ns.Perm ((taggedAdj gA gB t n.id).map
          (fun nid => ((taggedPrev prevA prevB t).lookup nid).getD 0)) ∧
        (mkNodeSig k t (taggedAdj gA gB t) (taggedPrev prevA prevB t)
          n).signature =
          sigK (((taggedPrev prevA prevB t).lookup n.id).getD 0) ns) ∧
    List.Sorted strLe
      ((processStep gA gB k prevA prevB c).step.mappings.map
        (·.signature)) ∧
    ((((processStep gA gB k prevA prevB c).step.mappings.map
        (·.signature)).Nodup) ∧
      (∀ s, s ∈ (processStep gA gB k prevA prevB c).step.mappings.map
          (·.signature) ↔
        s ∈ (poolSigs gA gB k prevA prevB).map (·.signature))) ∧
    (processStep gA gB k prevA prevB c).step.mappings.map (·.label) =
      List.range' (c + 1)
        (processStep gA gB k prevA prevB c).step.mappings.length := by
  have hms : (processStep gA gB k prevA prevB c).step.mappings =
      mappingListOf gA gB k (uniqueSigs (poolSigs gA gB k prevA prevB))
        c := by
    simp only [processStep_unfold]
  refine ⟨?_, ?_, ⟨?_, ?_⟩, ?_⟩
  · intro t n hn
    refine ⟨List.insertionSort (· ≤ ·)
      ((taggedAdj gA gB t n.id).map
        (fun nid => ((taggedPrev prevA prevB t).lookup nid).getD 0)),
      List.sorted_insertionSort _ _, List.perm_insertionSort _ _, ?_⟩
    exact mkNodeSig_signature_pos hk t _ _ n
  · rw [hms, mappingListOf_sigs_pos gA gB hk]
    exact uniqueSigs_sorted _
  · rw [hms, mappingListOf_sigs_pos gA gB hk]
    exact uniqueSigs_nodup _
  · intro s
    rw [hms, mappingListOf_sigs_pos gA gB hk]
    exact mem_uniqueSigs
  · rw [hms, mappingListOf_labels_pos gA gB hk,
      mappingListOf_pos gA gB hk, List.length_map, List.enum_length]

theorem c2_witness :
    (processStep pathG starG 1 (initLabels pathG starG pathG.nodes)
        (initLabels pathG starG starG.nodes) 3).step.mappings.map
      (·.label) =
      List.range' (3 + 1)
        (processStep pathG starG 1 (initLabels pathG starG pathG.nodes)
          (initLabels pathG starG starG.nodes) 3).step.mappings.length :=
  (c2_signature_and_pooling pathG starG 1 (by decide)
    (initLabels pathG starG pathG.nodes)
    (initLabels pathG starG starG.nodes) 3).2.2.2

/-! ## Iteration-order invariance -/

theorem mkNodeSig_congr {k : Nat} {g : GraphTag}
    {adj adj' : String → List String}
    {prev prev' : List (String × Nat)}
    (hadj : ∀ i, (adj i).Perm (adj' i))
    (hpl : ∀ s, prev.lookup s = prev'.lookup s) (n : Node) :
    mkNodeSig k g adj prev n = mkNodeSig k g adj' prev' n := by
  by_cases hk : k = 0
  · subst hk
    rfl
  · rw [mkNodeSig, mkNodeSig, if_neg (by simp [hk]), if_neg (by simp [hk])]
    have hfun : (fun nid => (prev.lookup nid).getD 0) =
        (fun nid => (prev'.lookup nid).getD 0) :=
      funext (fun s => by rw [hpl s])
    have hsort : List.insertionSort (· ≤ ·)
        ((adj n.id).map (fun nid => (prev'.lookup nid).getD 0)) =
        List.insertionSort (· ≤ ·)
        ((adj' n.id).map (fun nid => (prev'.lookup nid).getD 0)) :=
      insertionSort_eq_of_perm (· ≤ ·) ((hadj n.id).map _)
    simp only [hpl n.id, hfun, hsort]

theorem initValues_perm {gA gB gA' gB' : GraphData}
    (hAn : gA.nodes.Perm gA'.nodes) (hBn : gB.nodes.Perm gB'.nodes) :
    initValues gA gB = initValues gA' gB' := by
  rw [initValues, initValues]
  exact insertionSort_eq_of_perm (· ≤ ·)
    (((hAn.map _).append (hBn.map _)).dedup)

theorem uniqueSigs_eq_of_perm {sigs sigs' : List NodeSig}
    (h : sigs.Perm sigs') : uniqueSigs sigs = uniqueSigs sigs' :=
  insertionSort_eq_of_perm strLe ((h.map _).dedup)

theorem initLabels_lookup_eq {gA gB gA' gB' : GraphData}
    (hinit : initValues gA gB = initValues gA' gB')
    {nodes nodes' : List Node} (hperm : nodes.Perm nodes')
    (hnodup : (nodes.map (·.id)).Nodup) :
    ∀ s, (initLabels gA gB nodes).lookup s =
      (initLabels gA' gB' nodes').lookup s := by
  intro s
  have hfun : (fun n : Node => (n.id,
      ((initLabelMapOf (initValues gA gB)).lookup n.originalLabel).getD 0)) =
      (fun n : Node => (n.id,
      ((initLabelMapOf (initValues gA' gB')).lookup
        n.originalLabel).getD 0)) := by
    rw [hinit]
  apply lookup_eq_of_perm
  · rw [initLabels, initLabels, ← hfun]
    exact hperm.map _
  · rw [initLabels_keys]
    exact hnodup

/-- One refinement round is invariant under reordering of the input
node and link arrays: with pointwise-equal previous-label maps and the
same counter, both rounds produce equivalent step records and equal
counters. -/
theorem processStep_equiv (gA gB gA' gB' : GraphData)
    (hAn : gA.nodes.Perm gA'.nodes) (hAl : gA.links.Perm gA'.links)
    (hBn : gB.nodes.Perm gB'.nodes) (hBl : gB.links.Perm gB'.links)
    (hAnd : (gA.nodes.map (·.id)).Nodup)
    (hBnd : (gB.nodes.map (·.id)).Nodup)
    (k : Nat) (pA pB pA' pB' : List (String × Nat)) (c : Nat)
    (hplA : ∀ s, pA.lookup s = pA'.lookup s)
    (hplB : ∀ s, pB.lookup s = pB'.lookup s) :
    StepEquiv (processStep gA gB k pA pB c).step
      (processStep gA' gB' k pA' pB' c).step ∧
    (processStep gA gB k pA pB c).counter =
      (processStep gA' gB' k pA' pB' c).counter := by
  have hadjA : ∀ i, (getAdjacencyList gA.nodes gA.links i).Perm
      (getAdjacencyList gA'.nodes gA'.links i) := by
    intro i
    rw [← getAdjacencyList_nodes_perm hAn]
    exact getAdjacencyList_links_perm _ hAl i
  have hadjB : ∀ i, (getAdjacencyList gB.nodes gB.links i).Perm
      (getAdjacencyList gB'.nodes gB'.links i) := by
    intro i
    rw [← getAdjacencyList_nodes_perm hBn]
    exact getAdjacencyList_links_perm _ hBl i
  have hFA : mkNodeSig k GraphTag.A (getAdjacencyList gA.nodes gA.links)
      pA = mkNodeSig k GraphTag.A (getAdjacencyList gA'.nodes gA'.links)
      pA' := funext (mkNodeSig_congr hadjA hplA)
  have hFB : mkNodeSig k GraphTag.B (getAdjacencyList gB.nodes gB.links)
      pB = mkNodeSig k GraphTag.B (getAdjacencyList gB'.nodes gB'.links)
      pB' := funext (mkNodeSig_congr hadjB hplB)
  have hpool : (poolSigs gA gB k pA pB).Perm
      (poolSigs gA' gB' k pA' pB') := by
    rw [poolSigs, poolSigs, hFA, hFB]
    exact (hAn.map _).append (hBn.map _)
  have husigs : uniqueSigs (poolSigs gA gB k pA pB) =
      uniqueSigs (poolSigs gA' gB' k pA' pB') :=
    uniqueSigs_eq_of_perm hpool
  have hinit : initValues gA gB = initValues gA' gB' :=
    initValues_perm hAn hBn
  have hM : stepMappingOf gA gB k (uniqueSigs (poolSigs gA gB k pA pB))
      c = stepMappingOf gA' gB' k
        (uniqueSigs (poolSigs gA' gB' k pA' pB')) c := by
    rw [← husigs]
    exact stepMappingOf_congr hinit k _ c
  have hmlist : mappingListOf gA gB k
      (uniqueSigs (poolSigs gA gB k pA pB)) c = mappingListOf gA' gB' k
        (uniqueSigs (poolSigs gA' gB' k pA' pB')) c := by
    rw [← husigs]
    exact mappingListOf_congr hinit k _ c
  have hlabelOf : (fun s : NodeSig =>
      ((stepMappingOf gA gB k (uniqueSigs (poolSigs gA gB k pA pB))
        c).lookup s.signature).getD 0) =
      (fun s : NodeSig =>
      ((stepMappingOf gA' gB' k (uniqueSigs (poolSigs gA' gB' k pA' pB'))
        c).lookup s.signature).getD 0) := by
    rw [hM]
  have hsigsA : ((poolSigs gA gB k pA pB).filter
      (fun s => s.graph == GraphTag.A)).Perm
      ((poolSigs gA' gB' k pA' pB').filter
      (fun s => s.graph == GraphTag.A)) := by
    rw [poolSigs_filter_A, poolSigs_filter_A, hFA]
    exact hAn.map _
  have hsigsB : ((poolSigs gA gB k pA pB).filter
      (fun s => s.graph == GraphTag.B)).Perm
      ((poolSigs gA' gB' k pA' pB').filter
      (fun s => s.graph == GraphTag.B)) := by
    rw [poolSigs_filter_B, poolSigs_filter_B, hFB]
    exact hBn.map _
  have hmapA : (((poolSigs gA gB k pA pB).filter
      (fun s => s.graph == GraphTag.A)).map (fun s =>
        ((stepMappingOf gA gB k (uniqueSigs (poolSigs gA gB k pA pB))
          c).lookup s.signature).getD 0)).Perm
      (((poolSigs gA' gB' k pA' pB').filter
      (fun s => s.graph == GraphTag.A)).map (fun s =>
        ((stepMappingOf gA' gB' k
          (uniqueSigs (poolSigs gA' gB' k pA' pB'))
          c).lookup s.signature).getD 0)) := by
    rw [← hlabelOf]
    exact hsigsA.map _
  have hmapB : (((poolSigs gA gB k pA pB).filter
      (fun s => s.graph == GraphTag.B)).map (fun s =>
        ((stepMappingOf gA gB k (uniqueSigs (poolSigs gA gB k pA pB))
          c).lookup s.signature).getD 0)).Perm
      (((poolSigs gA' gB' k pA' pB').filter
      (fun s => s.graph == GraphTag.B)).map (fun s =>
        ((stepMappingOf gA' gB' k
          (uniqueSigs (poolSigs gA' gB' k pA' pB'))
          c).lookup s.signature).getD 0)) := by
    rw [← hlabelOf]
    exact hsigsB.map _
  have hcountsA := countsOf_perm hmapA
  have hcountsB := countsOf_perm hmapB
  have hpairfun : (fun s : NodeSig => (s.id,
      ((stepMappingOf gA gB k (uniqueSigs (poolSigs gA gB k pA pB))
        c).lookup s.signature).getD 0)) =
      (fun s : NodeSig => (s.id,
      ((stepMappingOf gA' gB' k (uniqueSigs (poolSigs gA' gB' k pA' pB'))
        c).lookup s.signature).getD 0)) := by
    rw [hM]
  have hpairsA : (((poolSigs gA gB k pA pB).filter
      (fun s => s.graph == GraphTag.A)).map (fun s => (s.id,
        ((stepMappingOf gA gB k (uniqueSigs (poolSigs gA gB k pA pB))
          c).lookup s.signature).getD 0))).Perm
      (((poolSigs gA' gB' k pA' pB').filter
      (fun s => s.graph == GraphTag.A)).map (fun s => (s.id,
        ((stepMappingOf gA' gB' k
          (uniqueSigs (poolSigs gA' gB' k pA' pB'))
          c).lookup s.signature).getD 0))) := by
    rw [← hpairfun]
    exact hsigsA.map _
  have hpairsB : (((poolSigs gA gB k pA pB).filter
      (fun s => s.graph == GraphTag.B)).map (fun s => (s.id,
        ((stepMappingOf gA gB k (uniqueSigs (poolSigs gA gB k pA pB))
          c).lookup s.signature).getD 0))).Perm
      (((poolSigs gA' gB' k pA' pB').filter
      (fun s => s.graph == GraphTag.B)).map (fun s => (s.id,
        ((stepMappingOf gA' gB' k
          (uniqueSigs (poolSigs gA' gB' k pA' pB'))
          c).lookup s.signature).getD 0))) := by
    rw [← hpairfun]
    exact hsigsB.map _
  refine ⟨⟨rfl, ?_, ?_, ?_, ?_, ?_, ?_, ?_⟩, ?_⟩
  · intro i
    apply lookup_eq_of_perm ?_ ?_ i
    · simp only [processStep_unfold]
      exact hpairsA
    · rw [processStep_labelsA_keys]
      exact hAnd
  · intro i
    apply lookup_eq_of_perm ?_ ?_ i
    · simp only [processStep_unfold]
      exact hpairsB
    · rw [processStep_labelsB_keys]
      exact hBnd
  · simp only [processStep_unfold]
    exact hcountsA
  · simp only [processStep_unfold]
    exact hcountsB
  · simp only [processStep_unfold]
    rw [hcountsA, hcountsB]
  · simp only [processStep_unfold]
    exact hmlist
  · simp only [processStep_unfold]
    rw [hcountsA, hcountsB]
  · simp only [processStep_unfold]
    rw [husigs]

theorem runSteps_equiv (gA gB gA' gB' : GraphData)
    (hAn : gA.nodes.Perm gA'.nodes) (hAl : gA.links.Perm gA'.links)
    (hBn : gB.nodes.Perm gB'.nodes) (hBl : gB.links.Perm gB'.links)
    (hAnd : (gA.nodes.map (·.id)).Nodup)
    (hBnd : (gB.nodes.map (·.id)).Nodup) :
    ∀ (rounds k : Nat) (laA laB laA' laB' : List (String × Nat)) (c : Nat),
      (∀ s, laA.lookup s = laA'.lookup s) →
      (∀ s, laB.lookup s = laB'.lookup s) →
      List.Forall₂ StepEquiv (runSteps gA gB rounds k laA laB c)
        (runSteps gA' gB' rounds k laA' laB' c)
  | 0, _, _, _, _, _, _, _, _ => List.Forall₂.nil
  | rounds + 1, k, laA, laB, laA', laB', c, hA', hB' => by
    rw [runSteps, runSteps]
    obtain ⟨hse, hcnt⟩ := processStep_equiv gA gB gA' gB' hAn hAl hBn hBl
      hAnd hBnd k laA laB laA' laB' c hA' hB'
    refine List.Forall₂.cons hse ?_
    rw [← hcnt]
    exact runSteps_equiv gA gB gA' gB' hAn hAl hBn hBl hAnd hBnd rounds
      (k + 1) _ _ _ _ _ hse.2.1 hse.2.2.1

/-- C1: the run is a pure function of its inputs (so two runs on
identical inputs are definitionally identical), and its result is
invariant under any reordering of the input node arrays and link arrays
of either graph: the two step sequences have the same length and
pairwise equivalent records — the same `k`, the same node-to-LabelId
assignment (equal lookups at every id), the same histograms, the same
`uniqueLabels`, the same mapping rows, and the same verdict.  Node ids
are assumed unique per graph, as the data model requires. -/
theorem c1_order_invariance (gA gB gA' gB' : GraphData) (maxK : Int)
    (hAn : gA.nodes.Perm gA'.nodes) (hAl : gA.links.Perm gA'.links)
    (hBn : gB.nodes.Perm gB'.nodes) (hBl : gB.links.Perm gB'.links)
    (hAnd : (gA.nodes.map (·.id)).Nodup)
    (hBnd : (gB.nodes.map (·.id)).Nodup) :
    (runWLAlgorithm gA gB maxK).maxK =
      (runWLAlgorithm gA' gB' maxK).maxK ∧
    List.Forall₂ StepEquiv (runWLAlgorithm gA gB maxK).steps
      (runWLAlgorithm gA' gB' maxK).steps := by
  refine ⟨rfl, ?_⟩
  rw [runWLAlgorithm, runWLAlgorithm]
  have hinit := initValues_perm hAn hBn
  have hlabsA0 := initLabels_lookup_eq hinit hAn hAnd
  have hlabsB0 := initLabels_lookup_eq hinit hBn hBnd
  rw [← hinit]
  obtain ⟨hse0, hcnt0⟩ := processStep_equiv gA gB gA' gB' hAn hAl hBn hBl
    hAnd hBnd 0 (initLabels gA gB gA.nodes) (initLabels gA gB gB.nodes)
    (initLabels gA' gB' gA'.nodes) (initLabels gA' gB' gB'.nodes)
    (initValues gA gB).length hlabsA0 hlabsB0
  refine List.Forall₂.cons hse0 ?_
  rw [← hcnt0]
  exact runSteps_equiv gA gB gA' gB' hAn hAl hBn hBl hAnd hBnd maxK.toNat 1
    _ _ _ _ _ hlabsA0 hlabsB0

theorem c1_witness :
    (runWLAlgorithm pathG starG 2).maxK =
      (runWLAlgorithm ⟨pathG.nodes.reverse, pathG.links.reverse⟩
        ⟨starG.nodes.reverse, starG.links.reverse⟩ 2).maxK ∧
    List.Forall₂ StepEquiv (runWLAlgorithm pathG starG 2).steps
      (runWLAlgorithm ⟨pathG.nodes.reverse, pathG.links.reverse⟩
        ⟨starG.nodes.reverse, starG.links.reverse⟩ 2).steps :=
  c1_order_invariance pathG starG
    ⟨pathG.nodes.reverse, pathG.links.reverse⟩
    ⟨starG.nodes.reverse, starG.links.reverse⟩ 2 (by decide) (by decide)
    (by decide) (by decide) (by decide) (by decide)
